import Mathlib

/-!
Verification of the News aggregation pipeline (deusflow/News).

This file shallowly embeds the data model and the pure core of the pipeline:
the sent-store (file backend `internal/storage/file_cache.go` and the
transactional backend `internal/storage/postgres.go`), the scorer-independent
dedup stages, the diversity selector and the enrichment budget logic of the
`news` package, and the sanitize/summarize fallback logic of the `translate`
package.  Go strings are modelled as `List Char`; byte-level operations
(`len`, SHA-1, SHA-256) go through an explicit UTF-8 encoding; case mapping
models the ASCII rows of Go's Unicode case tables.  Every theorem below
either applies the case maps identically on both sides or quantifies only
over ASCII text: Go's full tables contain one-way rows (`ſ`→`S`, `ς`→`Σ`,
`µ`→`Μ`) that the model omits, so the title-case-invariance theorem is
stated for ASCII titles only.  Machine words are naturals reduced mod 2^32
exactly where the Go code overflows.
-/

namespace News

set_option maxRecDepth 100000

/-! ## Byte and word utilities -/

/-- One 32-bit modulus. -/
def M32 : Nat := 4294967296

/-- 32-bit addition (Go `+` on `uint32`). -/
def add32 (a b : Nat) : Nat := (a + b) % M32

/-- 32-bit xor. -/
def xor32 (a b : Nat) : Nat := Nat.xor a b

/-- 32-bit and. -/
def and32 (a b : Nat) : Nat := Nat.land a b

/-- 32-bit complement (for arguments < 2^32). -/
def not32 (a : Nat) : Nat := Nat.xor a (M32 - 1)

/-- Rotate a 32-bit word right by `k` (for `a < 2^32`, `k ≤ 32`). -/
def rotr32 (k a : Nat) : Nat := a / 2 ^ k + a % 2 ^ k * 2 ^ (32 - k)

/-- Rotate a 32-bit word left by `k` (for `0 < k ≤ 32`). -/
def rotl32 (k a : Nat) : Nat := rotr32 (32 - k) a

/-- Logical right shift. -/
def shr32 (k a : Nat) : Nat := a / 2 ^ k

/-- Big-endian 32-bit word from four bytes. -/
def word32OfBytes : List Nat → Nat
  | [a, b, c, d] => ((a * 256 + b) * 256 + c) * 256 + d
  | _ => 0

/-- Four big-endian bytes of a 32-bit word. -/
def bytesOfWord32 (w : Nat) : List Nat :=
  [w / 16777216 % 256, w / 65536 % 256, w / 256 % 256, w % 256]

/-- Eight big-endian bytes of a 64-bit length field. -/
def bytesOfLen64 (n : Nat) : List Nat :=
  [n / 2 ^ 56 % 256, n / 2 ^ 48 % 256, n / 2 ^ 40 % 256, n / 2 ^ 32 % 256,
   n / 2 ^ 24 % 256, n / 2 ^ 16 % 256, n / 2 ^ 8 % 256, n % 256]

/-- Split a list into consecutive chunks of size `sz` (fuel-driven; the fuel is
the list length so every element is consumed). -/
def chunksAux (sz : Nat) : Nat → List α → List (List α)
  | 0, _ => []
  | _ + 1, [] => []
  | fuel + 1, l => l.take sz :: chunksAux sz fuel (l.drop sz)

/-- Split a list into consecutive chunks of size `sz`. -/
def chunksOf (sz : Nat) (l : List α) : List (List α) := chunksAux sz l.length l

/-! ## UTF-8 and Go string primitives

Go strings are UTF-8 byte slices; `len` counts bytes and `[]byte(s)` yields
the UTF-8 encoding. -/

/-- UTF-8 encoding of one scalar value. -/
def utf8Char (c : Char) : List Nat :=
  let n := c.toNat
  if n < 128 then [n]
  else if n < 2048 then [192 + n / 64, 128 + n % 64]
  else if n < 65536 then [224 + n / 4096, 128 + n / 64 % 64, 128 + n % 64]
  else [240 + n / 262144, 128 + n / 4096 % 64, 128 + n / 64 % 64, 128 + n % 64]

/-- UTF-8 bytes of a string (Go `[]byte(s)`). -/
def utf8Bytes (s : List Char) : List Nat := (s.map utf8Char).flatten

/-- Go `len(s)` — the number of UTF-8 bytes. -/
def goLen (s : List Char) : Nat := (utf8Bytes s).length

/-- Whitespace as trimmed by Go's `strings.TrimSpace` / split by
`strings.Fields` (`unicode.IsSpace`): the ASCII space class plus NEL and NBSP. -/
def isGoSpace (c : Char) : Bool :=
  c.toNat = 32 ∨ c.toNat = 9 ∨ c.toNat = 10 ∨ c.toNat = 11 ∨ c.toNat = 12 ∨
    c.toNat = 13 ∨ c.toNat = 133 ∨ c.toNat = 160

/-- ASCII rows of Go's `strings.ToLower` on one character.  Go's full table
also lowers non-ASCII letters (e.g. `Æ`→`æ`); the theorems below apply this
map identically on both sides of an equation, so only the ASCII rows are
load-bearing. -/
def toLowerChar (c : Char) : Char :=
  if 65 ≤ c.toNat ∧ c.toNat ≤ 90 then Char.ofNat (c.toNat + 32) else c

/-- ASCII rows of Go's `strings.ToUpper` on one character.  Go's full table
has one-way rows the model omits — `ſ`→`S`, `ς`→`Σ`, `µ`→`Μ` — for which
`ToLower` does not undo `ToUpper`; any theorem about upper-then-lower
round-trips must therefore quantify over ASCII text only. -/
def toUpperChar (c : Char) : Char :=
  if 97 ≤ c.toNat ∧ c.toNat ≤ 122 then Char.ofNat (c.toNat - 32) else c

/-- Go `strings.ToLower`. -/
def goToLower (s : List Char) : List Char := s.map toLowerChar

/-- Go `strings.ToUpper`. -/
def goToUpper (s : List Char) : List Char := s.map toUpperChar

/-- Go `strings.TrimSpace`: drop leading and trailing whitespace. -/
def goTrimSpace (s : List Char) : List Char :=
  ((s.dropWhile isGoSpace).reverse.dropWhile isGoSpace).reverse

/-- Accumulator for `goFields`: `acc` holds the current word reversed. -/
def goFieldsAux : List Char → List Char → List (List Char)
  | [], acc => if acc.isEmpty then [] else [acc.reverse]
  | c :: rest, acc =>
    if isGoSpace c then
      if acc.isEmpty then goFieldsAux rest [] else acc.reverse :: goFieldsAux rest []
    else goFieldsAux rest (c :: acc)

/-- Go `strings.Fields`: the maximal whitespace-free substrings, in order. -/
def goFields (s : List Char) : List (List Char) := goFieldsAux s []

/-- Go `strings.HasPrefix`. -/
def goHasPfx (p s : List Char) : Bool := p.isPrefixOf s

/-- Go `strings.TrimPrefix`: drop `p` from the front when present. -/
def goTrimPfx (p s : List Char) : List Char :=
  if p.isPrefixOf s then s.drop p.length else s

/-! ## Hex encoding (Go `encoding/hex`, lowercase) -/

/-- Lowercase hex digit. -/
def hexDigitChar (n : Nat) : Char :=
  if n < 10 then Char.ofNat (48 + n) else Char.ofNat (87 + n)

/-- Two hex digits of a byte. -/
def hexByte (b : Nat) : List Char := [hexDigitChar (b / 16), hexDigitChar (b % 16)]

/-- Go `hex.EncodeToString`. -/
def hexEncode (bs : List Nat) : List Char := (bs.map hexByte).flatten

/-! ## SHA-256 (`crypto/sha256`) -/

/-- The 64 SHA-256 round constants. -/
def sha256K : List Nat :=
  [1116352408, 1899447441, 3049323471, 3921009573, 961987163, 1508970993,
   2453635748, 2870763221, 3624381080, 310598401, 607225278, 1426881987,
   1925078388, 2162078206, 2614888103, 3248222580, 3835390401, 4022224774,
   264347078, 604807628, 770255983, 1249150122, 1555081692, 1996064986,
   2554220882, 2821834349, 2952996808, 3210313671, 3336571891, 3584528711,
   113926993, 338241895, 666307205, 773529912, 1294757372, 1396182291,
   1695183700, 1986661051, 2177026350, 2456956037, 2730485921, 2820302411,
   3259730800, 3345764771, 3516065817, 3600352804, 4094571909, 275423344,
   430227734, 506948616, 659060556, 883997877, 958139571, 1322822218,
   1537002063, 1747873779, 1955562222, 2024104815, 2227730452, 2361852424,
   2428436474, 2756734187, 3204031479, 3329325298]

/-- The SHA-256 initial state. -/
def sha256H0 : List Nat :=
  [1779033703, 3144134277, 1013904242, 2773480762,
   1359893119, 2600822924, 528734635, 1541459225]

/-- Merkle–Damgård padding shared by SHA-1 and SHA-256: a 0x80 byte, zeros to
56 mod 64, then the bit length as 8 big-endian bytes. -/
def shaPad (msg : List Nat) : List Nat :=
  msg ++ [128] ++ List.replicate ((119 - msg.length % 64) % 64) 0 ++
    bytesOfLen64 (8 * msg.length)

/-- σ0. -/
def ssig0 (x : Nat) : Nat := xor32 (xor32 (rotr32 7 x) (rotr32 18 x)) (shr32 3 x)

/-- σ1. -/
def ssig1 (x : Nat) : Nat := xor32 (xor32 (rotr32 17 x) (rotr32 19 x)) (shr32 10 x)

/-- Σ0. -/
def bsig0 (x : Nat) : Nat := xor32 (xor32 (rotr32 2 x) (rotr32 13 x)) (rotr32 22 x)

/-- Σ1. -/
def bsig1 (x : Nat) : Nat := xor32 (xor32 (rotr32 6 x) (rotr32 11 x)) (rotr32 25 x)

/-- Extend the 16-word schedule by `n` further words. -/
def sha256Extend : Nat → List Nat → List Nat
  | 0, w => w
  | n + 1, w =>
    let i := w.length
    let v := add32 (add32 (w.getD (i - 16) 0) (ssig0 (w.getD (i - 15) 0)))
                   (add32 (w.getD (i - 7) 0) (ssig1 (w.getD (i - 2) 0)))
    sha256Extend n (w ++ [v])

/-- One round of the SHA-256 compression function; the state is the register
list `[a, b, c, d, e, f, g, h]` and `kw` the round constant plus schedule word. -/
def sha256Round (st : List Nat) (kw : Nat × Nat) : List Nat :=
  match st with
  | [a, b, c, d, e, f, g, h] =>
    let ch := xor32 (and32 e f) (and32 (not32 e) g)
    let maj := xor32 (xor32 (and32 a b) (and32 a c)) (and32 b c)
    let t1 := add32 (add32 (add32 h (bsig1 e)) (add32 ch kw.1)) kw.2
    let t2 := add32 (bsig0 a) maj
    [add32 t1 t2, a, b, c, add32 d t1, e, f, g]
  | st => st

/-- Compress one 64-byte chunk into the running hash state. -/
def sha256Chunk (h : List Nat) (chunk : List Nat) : List Nat :=
  let w := sha256Extend 48 ((chunksOf 4 chunk).map word32OfBytes)
  let st := (sha256K.zip w).foldl sha256Round h
  (h.zip st).map fun p => add32 p.1 p.2

/-- SHA-256 digest (32 bytes) of a byte message. -/
def sha256Bytes (msg : List Nat) : List Nat :=
  (((chunksOf 64 (shaPad msg)).foldl sha256Chunk sha256H0).map bytesOfWord32).flatten

/-! ## SHA-1 (`crypto/sha1`) -/

/-- The SHA-1 initial state. -/
def sha1H0 : List Nat := [1732584193, 4023233417, 2562383102, 271733878, 3285377520]

/-- Extend the 16-word SHA-1 schedule by `n` further words. -/
def sha1Extend : Nat → List Nat → List Nat
  | 0, w => w
  | n + 1, w =>
    let i := w.length
    let v := rotl32 1 (xor32 (xor32 (w.getD (i - 3) 0) (w.getD (i - 8) 0))
                             (xor32 (w.getD (i - 14) 0) (w.getD (i - 16) 0)))
    sha1Extend n (w ++ [v])

/-- Round function and constant for SHA-1 round `i`. -/
def sha1FK (i b c d : Nat) : Nat × Nat :=
  if i < 20 then (xor32 (and32 b c) (and32 (not32 b) d), 1518500249)
  else if i < 40 then (xor32 (xor32 b c) d, 1859775393)
  else if i < 60 then (xor32 (xor32 (and32 b c) (and32 b d)) (and32 c d), 2400959708)
  else (xor32 (xor32 b c) d, 3395469782)

/-- One round of the SHA-1 compression function on state `[a, b, c, d, e]`. -/
def sha1Round (st : List Nat) (iw : Nat × Nat) : List Nat :=
  match st with
  | [a, b, c, d, e] =>
    let fk := sha1FK iw.1 b c d
    let t := add32 (add32 (rotl32 5 a) fk.1) (add32 (add32 e fk.2) iw.2)
    [t, a, rotl32 30 b, c, d]
  | st => st

/-- Compress one 64-byte chunk into the running SHA-1 state. -/
def sha1Chunk (h : List Nat) (chunk : List Nat) : List Nat :=
  let w := sha1Extend 64 ((chunksOf 4 chunk).map word32OfBytes)
  let st := ((List.range 80).zip w).foldl sha1Round h
  (h.zip st).map fun p => add32 p.1 p.2

/-- SHA-1 digest (20 bytes) of a byte message. -/
def sha1Bytes (msg : List Nat) : List Nat :=
  (((chunksOf 64 (shaPad msg)).foldl sha1Chunk sha1H0).map bytesOfWord32).flatten

/-! ## Sent-store: `internal/storage/file_cache.go` and `postgres.go` -/

/-- `extractDomain` (file_cache.go): empty links map to `"unknown"`; otherwise
strip a literal `http://` then `https://` prefix, take the substring before
the first `/`, drop a `www.` prefix and lowercase.  (`strings.Split` never
returns an empty slice, so the source's `len(parts) == 0` branch is dead.) -/
def extractDomain (url : List Char) : List Char :=
  if url = [] then "unknown".toList
  else
    let u := goTrimPfx "https://".toList (goTrimPfx "http://".toList url)
    let domain := (u.splitOn '/').headD []
    goToLower (goTrimPfx "www.".toList domain)

/-- `FileCache.GenerateNewsHash` (also `PostgresCache.GenerateNewsHash`, which
delegates to it): lowercase and trim the title, collapse inner whitespace,
append `"|"` and the extracted domain, and keep the first 16 hex characters of
the SHA-256 digest. -/
def GenerateNewsHash (title link : List Char) : List Char :=
  let normalizedTitle :=
    List.intercalate " ".toList (goFields (goToLower (goTrimSpace title)))
  let domain := extractDomain link
  (hexEncode (sha256Bytes (utf8Bytes
    (normalizedTitle ++ "|".toList ++ domain)))).take 16

/-- A persisted sent record (`SentNewsItem` in file_cache.go, one `sent_news`
row in postgres.go; the serial `id` and `created_at` columns play no role in
the verified behavior).  `sentAt` is a Unix timestamp. -/
structure SentRecord where
  hash : List Char
  title : List Char
  link : List Char
  category : List Char
  source : List Char
  sentAt : Int
  deriving DecidableEq, Repr

/-- The cutoff `time.Now().Add(-ttlHours * time.Hour)` in Unix seconds. -/
def ttlCutoff (now ttlHours : Int) : Int := now - ttlHours * 3600

/-- Insert keyed by `hash` as into a Go map (`fc.items[hash] = item`):
replace the record holding that hash, or append a fresh one. -/
def upsertByHash (items : List SentRecord) (r : SentRecord) : List SentRecord :=
  if items.any (fun x => x.hash = r.hash) then
    items.map (fun x => if x.hash = r.hash then r else x)
  else items ++ [r]

/-- `FileCache.MarkAsSent`: store the full fresh record under its hash with
`SentAt = time.Now()`. -/
def FileCache.markAsSent (items : List SentRecord)
    (hash title link category source : List Char) (now : Int) : List SentRecord :=
  upsertByHash items ⟨hash, title, link, category, source, now⟩

/-- `FileCache.Load`: merge the records read from the cache file into the map,
skipping those at or past the TTL cutoff (`item.SentAt.After(cutoffTime)`). -/
def FileCache.load (items : List SentRecord) (file : List SentRecord)
    (now ttlHours : Int) : List SentRecord :=
  file.foldl
    (fun acc it => if ttlCutoff now ttlHours < it.sentAt then upsertByHash acc it else acc)
    items

/-- `FileCache.Cleanup`: delete the records with `SentAt.Before(cutoffTime)`. -/
def FileCache.cleanup (items : List SentRecord) (now ttlHours : Int) : List SentRecord :=
  items.filter (fun it => ¬ it.sentAt < ttlCutoff now ttlHours)

/-- `FileCache.IsAlreadySent`: the record exists and is within the TTL window. -/
def FileCache.isAlreadySent (items : List SentRecord) (hash : List Char)
    (now ttlHours : Int) : Bool :=
  match items.find? (fun x => x.hash = hash) with
  | none => false
  | some it => ttlCutoff now ttlHours < it.sentAt

/-- One operation against the file backend. -/
inductive FileOp where
  | load (file : List SentRecord) (now ttlHours : Int)
  | markSent (hash title link category source : List Char) (now : Int)
  | cleanup (now ttlHours : Int)

/-- Apply one file-backend operation. -/
def FileCache.step (items : List SentRecord) : FileOp → List SentRecord
  | .load file now ttl => FileCache.load items file now ttl
  | .markSent h t l c s now => FileCache.markAsSent items h t l c s now
  | .cleanup now ttl => FileCache.cleanup items now ttl

/-- Run a sequence of file-backend operations from the empty cache
(`NewFileCache` starts with an empty map). -/
def FileCache.run (ops : List FileOp) : List SentRecord :=
  ops.foldl FileCache.step []

/-- `PostgresCache.MarkAsSent`:
`INSERT … ON CONFLICT (hash) DO UPDATE SET sent_at = NOW()` — on conflict with
the unique `hash` key only `sent_at` is refreshed; otherwise a new row is
inserted with `sent_at = NOW()`. -/
def PostgresCache.markAsSent (table : List SentRecord)
    (hash title link category source : List Char) (now : Int) : List SentRecord :=
  if table.any (fun x => x.hash = hash) then
    table.map (fun x => if x.hash = hash then { x with sentAt := now } else x)
  else table ++ [⟨hash, title, link, category, source, now⟩]

/-- `PostgresCache.Cleanup`: `DELETE FROM sent_news WHERE sent_at < $cutoff`. -/
def PostgresCache.cleanup (table : List SentRecord) (now ttlHours : Int) : List SentRecord :=
  table.filter (fun it => ¬ it.sentAt < ttlCutoff now ttlHours)

/-- One operation against the transactional backend (reads do not change the
table and are modelled separately). -/
inductive PgOp where
  | markSent (hash title link category source : List Char) (now : Int)
  | cleanup (now ttlHours : Int)

/-- Apply one transactional-backend operation. -/
def PostgresCache.step (table : List SentRecord) : PgOp → List SentRecord
  | .markSent h t l c s now => PostgresCache.markAsSent table h t l c s now
  | .cleanup now ttl => PostgresCache.cleanup table now ttl

/-- Run a sequence of transactional-backend operations from the empty table
(the lazily created schema starts empty). -/
def PostgresCache.run (ops : List PgOp) : List SentRecord :=
  ops.foldl PostgresCache.step []

/-- Result of `SELECT COUNT(*) FROM sent_news WHERE hash = $1 AND sent_at > $2`
when the query succeeds. -/
def PostgresCache.countHash (table : List SentRecord) (hash : List Char)
    (now ttlHours : Int) : Nat :=
  (table.filter (fun x => x.hash = hash ∧ ttlCutoff now ttlHours < x.sentAt)).length

/-- Result of `SELECT COUNT(*) FROM sent_news WHERE link = $1 AND sent_at > $2`
when the query succeeds. -/
def PostgresCache.countLink (table : List SentRecord) (link : List Char)
    (now ttlHours : Int) : Nat :=
  (table.filter (fun x => x.link = link ∧ ttlCutoff now ttlHours < x.sentAt)).length

/-- `PostgresCache.IsAlreadySent`: scan the count query's outcome; a database
error is logged and answered with `false`, otherwise `count > 0`. -/
def PostgresCache.isAlreadySent (queryResult : Except (List Char) Nat) : Bool :=
  match queryResult with
  | .error _ => false
  | .ok count => decide (0 < count)

/-- `PostgresCache.IsLinkAlreadySent`: same scan on the link count query. -/
def PostgresCache.isLinkAlreadySent (queryResult : Except (List Char) Nat) : Bool :=
  match queryResult with
  | .error _ => false
  | .ok count => decide (0 < count)

/-- Modelled from the spec: the publication pre-check of the triple-check
protocol (§4.6), `isHashSent || isLinkSent`, which suppresses an item exactly
when one of the two store reads answers `true`.  The orchestrator loop that
performs this check is not among the provided sources. -/
def publicationBlocked (hashRes linkRes : Except (List Char) Nat) : Bool :=
  PostgresCache.isAlreadySent hashRes || PostgresCache.isLinkAlreadySent linkRes

/-! ## URL model (`net/url` as used by the `news` package)

`normalizeURL` and `makeSimilarityKey` go through `url.Parse`.  The model
below parses the hierarchical `scheme://host/path?query#fragment` shape
(userinfo split at the last `@`, opaque `scheme:rest` URIs with empty host
and path, scheme-less strings as relative paths), which is the behavior of
`url.Parse` on every input the embedded functions distinguish; percent-escape
validation and re-encoding are modelled as the identity. -/

/-- A parsed URL: the fields of `url.URL` read by the embedded code. -/
structure GoURL where
  scheme : List Char
  host : List Char
  path : List Char
  query : List (List Char × List Char)
  fragment : List Char
  deriving Repr, DecidableEq

/-- Split at the first occurrence of `sep`: the part before, and — when `sep`
occurs — the part after. -/
def breakAtChar (sep : Char) : List Char → List Char × Option (List Char)
  | [] => ([], none)
  | c :: rest =>
    if c = sep then ([], some rest)
    else
      let r := breakAtChar sep rest
      (c :: r.1, r.2)

/-- RFC 3986 scheme characters (after the leading letter). -/
def isSchemeChar (c : Char) : Bool := c.isAlpha ∨ c.isDigit ∨ c = '+' ∨ c = '-' ∨ c = '.'

/-- Split a leading `scheme:` when present (Go `getScheme`): the candidate must
be non-empty, start with a letter and be immediately followed by `:`; the
scheme is lowercased. -/
def splitScheme (s : List Char) : List Char × List Char :=
  let p := s.takeWhile isSchemeChar
  match s.drop p.length with
  | ':' :: rest =>
    if p ≠ [] ∧ (p.headD 'a').isAlpha then (goToLower p, rest) else ([], s)
  | _ => ([], s)

/-- Drop a `userinfo@` section: Go splits the authority at the last `@`. -/
def afterLastAt (s : List Char) : List Char :=
  ((s.reverse.takeWhile (fun c => c ≠ '@')).reverse)

/-- Parse a raw query (`url.ParseQuery`): split at `&`, skip empty segments,
cut each segment at the first `=` (a segment without `=` carries the empty
value). -/
def parseQuery (s : List Char) : List (List Char × List Char) :=
  ((s.splitOn '&').filter (fun seg => seg ≠ [])).map fun seg =>
    match breakAtChar '=' seg with
    | (k, none) => (k, [])
    | (k, some v) => (k, v)

/-- Byte-wise lexicographic comparison of strings (Go `sort.Strings`; UTF-8
preserves code-point order). -/
def lexLe : List Char → List Char → Bool
  | [], _ => true
  | _ :: _, [] => false
  | a :: as, b :: bs =>
    if a.toNat < b.toNat then true
    else if b.toNat < a.toNat then false
    else lexLe as bs

/-- `url.Values.Encode`: pairs sorted by key (stably, so repeated keys keep
their order), joined as `k=v&…`. -/
def encodeQuery (q : List (List Char × List Char)) : List Char :=
  List.intercalate "&".toList
    ((q.mergeSort (fun p r => lexLe p.1 r.1)).map fun p => p.1 ++ "=".toList ++ p.2)

/-- `url.Parse` on the modelled grammar (total: the Go error cases —
malformed escapes, control bytes, bad ports — do not occur on the inputs the
embedded functions distinguish). -/
def parseURL (raw : List Char) : GoURL :=
  let fr := breakAtChar '#' raw
  let fragment := (fr.2).getD []
  let sch := splitScheme fr.1
  let scheme := sch.1
  let rest := sch.2
  if goHasPfx "//".toList rest then
    let rest2 := rest.drop 2
    let auth := rest2.takeWhile (fun c => c ≠ '/' ∧ c ≠ '?')
    let after := rest2.drop auth.length
    let pv := breakAtChar '?' after
    { scheme, host := afterLastAt auth, path := pv.1,
      query := parseQuery ((pv.2).getD []), fragment }
  else if scheme ≠ [] then
    let qv := breakAtChar '?' rest
    { scheme, host := [], path := [], query := parseQuery ((qv.2).getD []), fragment }
  else
    let pv := breakAtChar '?' rest
    { scheme, host := [], path := pv.1, query := parseQuery ((pv.2).getD []), fragment }

/-- Collapse runs of `/` (the regexp `/+` replaced by `/`). -/
def collapseSlashesAux : List Char → Bool → List Char
  | [], _ => []
  | c :: rest, prevSlash =>
    if c = '/' then
      if prevSlash then collapseSlashesAux rest true
      else '/' :: collapseSlashesAux rest true
    else c :: collapseSlashesAux rest false

/-- Collapse runs of `/` to a single `/`. -/
def collapseSlashes (s : List Char) : List Char := collapseSlashesAux s false

/-- Go `strings.TrimRight(s, "/")`. -/
def trimRightSlashes (s : List Char) : List Char :=
  (s.reverse.dropWhile (fun c => c = '/')).reverse

/-- The query parameters deleted by `normalizeURL`. -/
def trackedParams : List (List Char) :=
  ["utm_source", "utm_medium", "utm_campaign", "utm_term", "utm_content",
   "fbclid", "gclid"].map String.toList

/-! ## Deduper (`internal/news`, part_008) -/

/-- `normalizeURL`: parse (defaulting the scheme to `https` by re-parsing with
that prefix), clear the fragment, delete the tracking parameters, lowercase
the host and strip `www.`, collapse duplicate slashes and trim the trailing
slash, and reassemble `scheme://host path [?query]`. -/
def normalizeURL (raw : List Char) : List Char :=
  if raw = [] then []
  else
    let u0 := parseURL raw
    let u := if u0.scheme = [] then parseURL ("https://".toList ++ raw) else u0
    let q := u.query.filter (fun p => ¬ trackedParams.contains p.1)
    let host := goTrimPfx "www.".toList (goToLower u.host)
    let path := trimRightSlashes (collapseSlashes u.path)
    let rawQuery := encodeQuery q
    u.scheme ++ "://".toList ++ host ++ path ++
      (if rawQuery = [] then [] else "?".toList ++ rawQuery)

/-- `makeNewsKey`: full-hex SHA-1 over `lowercase(title + description)`. -/
def makeNewsKey (title description : List Char) : List Char :=
  hexEncode (sha1Bytes (utf8Bytes (goToLower (title ++ description))))

/-- A feed item (`rss.FeedItem` as read by the `news` package).
`publishedParsed` is `PublishedParsed` as a Unix timestamp; the source's
secondary `time.Parse` of the raw `Published` string is folded into this
optional value (both mean "the item's parsed timestamp, else now").  The
`source*` fields are the `item.Source` metadata, empty when `Source` is nil. -/
structure FeedItem where
  title : List Char := []
  description : List Char := []
  link : List Char := []
  publishedParsed : Option Int := none
  sourceName : List Char := []
  sourceLang : List Char := []
  sourceCategories : List (List Char) := []
  deriving Repr, DecidableEq

/-- The stop-word list of `makeSimilarityKey`. -/
def stopWords : List (List Char) :=
  ["a", "an", "the", "og", "i", "på", "til", "af", "med", "for", "er", "der",
   "om", "en", "et", "ikke"].map String.toList

/-- Strip complete HTML tags (the regexp `<[^>]*>` replaced by a space); a `<`
with no closing `>` is left in place, as the regexp leaves it unmatched. -/
def stripTagsAux : Nat → List Char → List Char
  | 0, s => s
  | _ + 1, [] => []
  | fuel + 1, c :: rest =>
    if c = '<' then
      match breakAtChar '>' rest with
      | (_, some after) => ' ' :: stripTagsAux fuel after
      | (_, none) => c :: rest
    else c :: stripTagsAux fuel rest

/-- Strip complete HTML tags. -/
def stripTags (s : List Char) : List Char := stripTagsAux s.length s

/-- `unicode.IsLetter || unicode.IsNumber` modelled on ASCII, with every
non-ASCII code point counted as a letter (true for the Danish and Ukrainian
letters in the corpus; no theorem below depends on the symbol rows). -/
def isLetterOrDigit (c : Char) : Bool := c.isAlpha ∨ c.isDigit ∨ 128 ≤ c.toNat

/-- The `normalize` helper of `makeSimilarityKey`: lowercase, strip tags, map
every non-letter/digit/space character to a space, and re-join the fields
with single spaces. -/
def simNormalize (s : List Char) : List Char :=
  let s1 := stripTags (goToLower s)
  let s2 := s1.map fun c => if isLetterOrDigit c ∨ isGoSpace c then c else ' '
  List.intercalate " ".toList (goFields s2)

/-- The significant-word filter: walk the words, skipping stop words and words
of byte length ≤ 2, until `maxW` words are collected. -/
def pickSignificant (maxW : Nat) : List (List Char) → List (List Char)
  | [] => []
  | w :: rest =>
    if maxW = 0 then []
    else if stopWords.contains w then pickSignificant maxW rest
    else if goLen w ≤ 2 then pickSignificant maxW rest
    else w :: pickSignificant (maxW - 1) rest

/-- Decimal rendering of an integer (`fmt` `%d`). -/
def intDec (i : Int) : List Char :=
  if i < 0 then '-' :: Nat.toDigits 10 i.natAbs else Nat.toDigits 10 i.natAbs

/-- `makeSimilarityKey`: `host|top-6-significant-words|6h-window-start`, where
the window start truncates the item's timestamp (or `now`) to 6 hours. -/
def makeSimilarityKey (item : FeedItem) (now : Int) : List Char :=
  let host :=
    if item.link = [] then "unknown".toList
    else
      let u := parseURL item.link
      if u.host = [] then "unknown".toList else goToLower u.host
  let text := goTrimSpace (item.title ++ " ".toList ++ item.description)
  let words := goFields (simNormalize text)
  let significant0 := pickSignificant 6 words
  let significant :=
    if significant0 = [] ∧ words ≠ [] then words.take 6 else significant0
  let t := item.publishedParsed.getD now
  let windowStart := Int.fdiv t 21600 * 21600
  host ++ "|".toList ++ List.intercalate "_".toList significant ++
    "|".toList ++ intDec windowStart

/-- The character class `[[:alnum:]]` of Go regexp (ASCII alphanumerics). -/
def isGoAlnum (c : Char) : Bool := c.isAlpha ∨ c.isDigit

/-- The RE2 class `\s`. -/
def isReSpace (c : Char) : Bool :=
  c = ' ' ∨ c = '\t' ∨ c = '\n' ∨ c.toNat = 12 ∨ c.toNat = 13

/-- The word list underlying `shingleSet`: lowercase, replace every character
outside `[[:alnum:]\s]` by a space (the regexp collapses each such run to one
space, which is indistinguishable after `strings.Fields`), split to fields. -/
def shingleWords (s : List Char) : List (List Char) :=
  goFields ((goToLower s).map fun c => if isGoAlnum c ∨ isReSpace c then c else ' ')

/-- The `k`-grams of a word list, joined by single spaces; empty when there
are fewer than `k` words (the Go loop bound `len(words)-k` is a negative
`int` then). -/
def kgrams (k : Nat) (words : List (List Char)) : List (List Char) :=
  if words.length < k then []
  else (List.range (words.length - k + 1)).map fun i =>
    List.intercalate " ".toList ((words.drop i).take k)

/-- `shingleSet`: the `k`-gram shingles of `s`; single words when the text is
shorter than `k` words; empty for word-less text. -/
def shingleSet (s : List Char) (k : Nat) : Finset (List Char) :=
  let words := shingleWords s
  if words = [] then ∅
  else
    let out := (kgrams k words).toFinset
    if out = ∅ then words.toFinset else out

/-- `jaccardSimilarity` between two strings using `k`-gram shingles.  The
`float64` arithmetic is modelled exactly in `ℚ`: the properties proved below
(symmetry, the `[0,1]` range and the exact `0`/`1` endpoints) are precisely
those on which the two semantics agree. -/
def jaccardSimilarity (a b : List Char) (k : Nat) : ℚ :=
  let sa := shingleSet a k
  let sb := shingleSet b k
  if sa = ∅ ∨ sb = ∅ then 0
  else
    let inter := (sa ∩ sb).card
    let union := sa.card + sb.card - inter
    if union = 0 then 0 else (inter : ℚ) / (union : ℚ)

/-- `isSimilarTitle`: 2-gram shingle Jaccard at threshold `0.55`; empty titles
never match.  (`0.55 = 11/20`; for set sizes below `2^52` the `float64`
comparison agrees with the exact rational one.) -/
def isSimilarTitle (a b : List Char) : Bool :=
  if a = [] ∨ b = [] then false
  else decide ((11 / 20 : ℚ) ≤ jaccardSimilarity a b 2)

/-- A pipeline item (`news.News`); fields the embedded code never reads are
kept for shape. -/
structure NewsItem where
  title : List Char := []
  content : List Char := []
  link : List Char := []
  published : Int := 0
  category : List Char := []
  score : Int := 0
  sourceName : List Char := []
  sourceLang : List Char := []
  sourceCategories : List (List Char) := []
  summary : List Char := []
  summaryDanish : List Char := []
  summaryUkrainian : List Char := []
  titleUkrainian : List Char := []
  imageURL : List Char := []
  imageAlt : List Char := []
  deriving Repr, DecidableEq

/-- The in-run dedup state of `FilterAndTranslateWithOptions`: the three seen
maps (only key membership matters), the accepted titles, and the candidates
accumulated so far. -/
structure RunState where
  seenLinks : List (List Char) := []
  seenContent : List (List Char) := []
  seenSimilar : List (List Char) := []
  seenTitles : List (List Char) := []
  candidates : List NewsItem := []
  deriving Repr, DecidableEq

/-- One iteration of the candidate loop of `FilterAndTranslateWithOptions`
(part_008 lines 545–625): age gate, the four dedup stages in order, then
scoring and candidate construction.  The scorer `calculateNewsScore` and the
image extraction are abstracted as the arguments `score` and `image`; the
dedup logic never inspects them.  `maxAge` is `opts.MaxAge` in seconds. -/
def processItem (score : FeedItem → List Char × Int) (image : FeedItem → List Char)
    (maxAge now : Int) (st : RunState) (item : FeedItem) : RunState :=
  if item.publishedParsed.any (fun t => maxAge < now - t) then st
  else
    let nl := normalizeURL item.link
    if nl ∈ st.seenLinks then st
    else
      let st1 := { st with seenLinks := st.seenLinks ++ [nl] }
      let ck := makeNewsKey item.title item.description
      if ck ∈ st1.seenContent then st1
      else
        let st2 := { st1 with seenContent := st1.seenContent ++ [ck] }
        let sk := makeSimilarityKey item now
        if sk ∈ st2.seenSimilar then st2
        else
          let st3 := { st2 with seenSimilar := st2.seenSimilar ++ [sk] }
          if st3.seenTitles.any (fun t => isSimilarTitle item.title t) then st3
          else
            let cs := score item
            if cs.2 = 0 then st3
            else
              let published := item.publishedParsed.getD now
              { st3 with
                candidates := st3.candidates ++
                  [{ title := item.title, content := item.description,
                     link := item.link, published, category := cs.1,
                     score := cs.2, sourceName := item.sourceName,
                     sourceLang := item.sourceLang,
                     sourceCategories := item.sourceCategories,
                     imageURL := image item, imageAlt := item.title }],
                seenTitles := st3.seenTitles ++ [item.title] }

/-! ## Selector (`selectDiverse`, part_008 lines 1068–1123) -/

/-- The `sort.Slice` / `sort.SliceStable` comparator of the pipeline: score
descending, then `Published` descending. -/
def selLess (a b : NewsItem) : Bool :=
  if a.score ≠ b.score then b.score < a.score else b.published < a.published

/-- The non-strict order induced by `selLess` (what a stable sort under
`selLess` sorts by). -/
def selLe (a b : NewsItem) : Bool := ¬ selLess b a

/-- Per-source tally of the greedy output (the loop's `srcCount` map holds
exactly this count for every name). -/
def countBySource (out : List NewsItem) (s : List Char) : Nat :=
  (out.filter (fun x => x.sourceName = s)).length

/-- Per-category tally of the greedy output (the loop's `catCount` map). -/
def countByCategory (out : List NewsItem) (c : List Char) : Nat :=
  (out.filter (fun x => x.category = c)).length

/-- The first, cap-enforcing loop of `selectDiverse`: accept in order while
the result is below `limit`, skipping empty links and candidates whose source
or category is at its (positive) cap. -/
def greedyPass (limit perSource perCategory : Int) : List NewsItem → List NewsItem → List NewsItem
  | [], out => out
  | c :: rest, out =>
    if limit ≤ (out.length : Int) then out
    else if c.link = [] then greedyPass limit perSource perCategory rest out
    else if 0 < perSource ∧ perSource ≤ (countBySource out c.sourceName : Int) then
      greedyPass limit perSource perCategory rest out
    else if 0 < perCategory ∧ perCategory ≤ (countByCategory out c.category : Int) then
      greedyPass limit perSource perCategory rest out
    else greedyPass limit perSource perCategory rest (out ++ [c])

/-- The second, cap-ignoring loop: fill to `limit` with candidates whose link
is not yet present. -/
def fillPass (limit : Int) : List NewsItem → List NewsItem → List NewsItem
  | [], out => out
  | c :: rest, out =>
    if limit ≤ (out.length : Int) then out
    else if out.any (fun x => x.link = c.link) then fillPass limit rest out
    else fillPass limit rest (out ++ [c])

/-- `selectDiverse`: greedy pass under the caps, relax-and-fill when short of
`limit`, then a stable re-sort by score and recency. -/
def selectDiverse (candidates : List NewsItem) (limit perSource perCategory : Int) : List NewsItem :=
  if limit ≤ 0 then []
  else
    let out := greedyPass limit perSource perCategory candidates []
    let out2 := if (out.length : Int) < limit then fillPass limit candidates out else out
    out2.mergeSort selLe

/-- The selection stage of `FilterAndTranslateWithOptions` (lines 639–644):
cut the sorted candidates to the working pool of `4 × limit` and apply
`selectDiverse`. -/
def selectionStage (sorted : List NewsItem) (limit perSource perCategory : Int) : List NewsItem :=
  selectDiverse (sorted.take (4 * limit).toNat) limit perSource perCategory

/-! ## Enricher (`FilterAndTranslateWithOptions`, lines 651–736) -/

/-- Take a prefix of at most `k` UTF-8 bytes (Go byte slicing `c[:k]`; Go may
cut a rune in half, the model stops at the last whole rune — both outputs are
non-empty for `k ≥ 1` and non-empty input, which is all the theorems use). -/
def takeBytes (k : Nat) : List Char → List Char
  | [] => []
  | c :: rest => if goLen [c] ≤ k then c :: takeBytes (k - goLen [c]) rest else []

/-- `fallbackSummary`: the first up-to-2 sentences of ≥ 25 bytes, else the
first 160 bytes with an ellipsis, else the trimmed content; a fixed marker
for empty content. -/
def fallbackSummary (content : List Char) : List Char :=
  let c := goTrimSpace content
  if c = [] then "(Нет контента)".toList
  else
    let sentences := c.splitOn '.'
    let picked := ((sentences.map goTrimSpace).filter (fun s => ¬ goLen s < 25)).take 2
    if picked = [] then
      if 160 < goLen c then takeBytes 160 c ++ "...".toList else c
    else List.intercalate ". ".toList picked ++ ".".toList

/-- The result shape of the primary provider (`gemini.TranslateAndSummarizeNews`). -/
structure AIResp where
  summary : List Char := []
  danish : List Char := []
  ukrainian : List Char := []
  deriving Repr, DecidableEq

/-- Outcomes of the external calls made while enriching one item: `primary`
is the Gemini call, `sumDa`/`sumUk` the `translate.SummarizeText` calls,
`titleUk` the `translate.TranslateText` call; `.error` is a failed call. -/
structure EnrichCalls where
  primary : Except (List Char) AIResp := .error []
  sumDa : Except (List Char) (List Char) := .error []
  sumUk : Except (List Char) (List Char) := .error []
  titleUk : Except (List Char) (List Char) := .error []
  deriving Repr

/-- The `err == nil && strings.TrimSpace(v) != ""` guard used on every
fallback call: keep the call's value when it succeeded non-blank, else the
default. -/
def useOr (r : Except (List Char) (List Char)) (fallback : List Char) : List Char :=
  match r with
  | .ok s => if goTrimSpace s = [] then fallback else s
  | .error _ => fallback

/-- The Ukrainian-title update: set only on a non-blank successful call. -/
def titleUpd (n : NewsItem) (r : Except (List Char) (List Char)) : NewsItem :=
  match r with
  | .ok t => if goTrimSpace t = [] then n else { n with titleUkrainian := t }
  | .error _ => n

/-- The full-text swap (lines 665–670): replace the content when the scraper
returned this link's article with a body of more than 200 bytes. -/
def applyFullText (n : NewsItem) (scraped : Option (List Char)) : NewsItem :=
  match scraped with
  | some body => if 200 < goLen body then { n with content := body } else n
  | none => n

/-- The per-item enrichment body (lines 661–736): full-text swap, the Gemini
budget gate, the Gemini call or the fallback chain, and the counter update.
Returns the enriched item and the new `geminiRequests` counter. -/
def enrichStep (maxGemini geminiRequests : Int) (n0 : NewsItem)
    (scraped : Option (List Char)) (calls : EnrichCalls) : NewsItem × Int :=
  let n := applyFullText n0 scraped
  if 0 < maxGemini ∧ maxGemini ≤ geminiRequests then
    let n := { n with summary := fallbackSummary n.content }
    let n := { n with summaryDanish := useOr calls.sumDa (fallbackSummary n.content) }
    let n := { n with summaryUkrainian := useOr calls.sumUk (fallbackSummary n.content) }
    (titleUpd n calls.titleUk, geminiRequests)
  else
    match calls.primary with
    | .error _ =>
      let n := { n with summary := fallbackSummary n.content }
      let n := { n with summaryUkrainian := useOr calls.sumUk (fallbackSummary n.content) }
      let n := { n with summaryDanish := useOr calls.sumDa (fallbackSummary n.content) }
      (titleUpd n calls.titleUk, geminiRequests + 1)
    | .ok resp =>
      let n := { n with summary := resp.summary, summaryDanish := resp.danish,
                        summaryUkrainian := resp.ukrainian }
      (titleUpd n calls.titleUk, geminiRequests + 1)

/-! ## Sanitizer (`internal/translate`, part_009)

The three disclaimer regexps of `removeInlineDisclaimers` and the line-level
pattern of `SanitizeAIText` are transcribed as explicit left-to-right
scanners below; each scanner's doc comment quotes the regexp it implements. -/

/-- RE2 `\w`. -/
def isWordChar (c : Char) : Bool := isGoAlnum c ∨ c = '_'

/-- Case-insensitive (ASCII) keyword match at the head of `s`. -/
def ciPfx (kw : String) (s : List Char) : Bool :=
  kw.toList.isPrefixOf (goToLower (s.take kw.length))

/-- Keyword at the head of `s` followed by a `\b` boundary. -/
def ciKwBoundary (kw : String) (s : List Char) : Bool :=
  ciPfx kw s && match (s.drop kw.length).head? with
                | none => true
                | some c => ¬ isWordChar c

/-- The line pattern `(?i)^\s*[(\[]?\s*(note|disclaimer)\b`. -/
def startsWithDisclaimer (l : List Char) : Bool :=
  let s1 := l.dropWhile isReSpace
  let s2 := match s1 with
            | c :: rest => if c = '(' ∨ c = '[' then rest else s1
            | [] => s1
  let s3 := s2.dropWhile isReSpace
  ciKwBoundary "note" s3 ∨ ciKwBoundary "disclaimer" s3

/-- The alternation of the bracketed-disclaimer regexp. -/
def parenKeywords : List String :=
  ["note", "disclaimer", "this translation is a machine translation",
   "ai language model"]

/-- Head match of
`(?i)\s*[(\[]\s*(?:note|disclaimer|…)[^)\]]*[)\]]\s*`; returns the remainder
after the whole match. -/
def matchParenDisclaimer (s : List Char) : Option (List Char) :=
  match s.dropWhile isReSpace with
  | c :: rest =>
    if c = '(' ∨ c = '[' then
      let s2 := rest.dropWhile isReSpace
      if parenKeywords.any (fun kw => ciPfx kw s2) then
        match s2.dropWhile (fun d => d ≠ ')' ∧ d ≠ ']') with
        | _ :: after => some (after.dropWhile isReSpace)
        | [] => none
      else none
    else none
  | [] => none

/-- Replace every bracketed-disclaimer match by one space. -/
def stripParenAux : Nat → List Char → List Char
  | 0, s => s
  | _ + 1, [] => []
  | fuel + 1, c :: rest =>
    match matchParenDisclaimer (c :: rest) with
    | some after => ' ' :: stripParenAux fuel after
    | none => c :: stripParenAux fuel rest

/-- Sentence enders `[.!?]`. -/
def isSentEnd (c : Char) : Bool := c = '.' ∨ c = '!' ∨ c = '?'

/-- Head match of `(?:note|disclaimer)\s*:\s*[^.!?]*[.!?]`. -/
def matchNoteSentence (s : List Char) : Option (List Char) :=
  if ciPfx "note" s ∨ ciPfx "disclaimer" s then
    let n := if ciPfx "note" s then 4 else 10
    match (s.drop n).dropWhile isReSpace with
    | ':' :: rest =>
      match rest.dropWhile (fun c => ¬ isSentEnd c) with
      | _ :: after => some after
      | [] => none
    | _ => none
  else none

/-- Replace every match of
`(?i)(?:^|[.!?]\s+)(?:note|disclaimer)\s*:\s*[^.!?]*[.!?]` by one space;
`atStart` tracks the `^` anchor. -/
def stripNoteSentencesAux : Nat → Bool → List Char → List Char
  | 0, _, s => s
  | _ + 1, _, [] => []
  | fuel + 1, atStart, c :: rest =>
    match (if atStart then matchNoteSentence (c :: rest) else none) with
    | some after => ' ' :: stripNoteSentencesAux fuel false after
    | none =>
      if isSentEnd c ∧ rest.head?.any isReSpace then
        match matchNoteSentence (rest.dropWhile isReSpace) with
        | some after => ' ' :: stripNoteSentencesAux fuel false after
        | none => c :: stripNoteSentencesAux fuel false rest
      else c :: stripNoteSentencesAux fuel false rest

/-- The alternation of the generic-phrase regexp (with `double[- ]?check`
expanded). -/
def phraseKeywords : List String :=
  ["this translation is a machine translation", "ai language model",
   "double-check", "double check", "doublecheck", "for accurate translations"]

/-- Head match of `(?:phrase…)[^.!?\n]*[.!?]`. -/
def matchPhrase (s : List Char) : Option (List Char) :=
  match phraseKeywords.find? (fun kw => ciPfx kw s) with
  | some kw =>
    match (s.drop kw.length).dropWhile (fun c => ¬ (isSentEnd c ∨ c = '\n')) with
    | c :: after => if isSentEnd c then some after else none
    | [] => none
  | none => none

/-- Replace every match of `(?i)(?:^|\s)(?:phrase…)[^.!?\n]*[.!?]` by one
space; the leading `\s`, when present, is part of the match. -/
def stripPhrasesAux : Nat → Bool → List Char → List Char
  | 0, _, s => s
  | _ + 1, _, [] => []
  | fuel + 1, atStart, c :: rest =>
    match (if atStart then matchPhrase (c :: rest) else none) with
    | some after => ' ' :: stripPhrasesAux fuel false after
    | none =>
      if isReSpace c then
        match matchPhrase rest with
        | some after => ' ' :: stripPhrasesAux fuel false after
        | none => c :: stripPhrasesAux fuel false rest
      else c :: stripPhrasesAux fuel false rest

/-- Replace every run of two or more `\s` characters by one space
(`\s{2,}` → `" "`); a single whitespace character is left as it is. -/
def collapseWsAux : Nat → List Char → List Char
  | 0, s => s
  | _ + 1, [] => []
  | fuel + 1, c :: rest =>
    if isReSpace c then
      match rest with
      | d :: _ =>
        if isReSpace d then ' ' :: collapseWsAux fuel (rest.dropWhile isReSpace)
        else c :: collapseWsAux fuel rest
      | [] => [c]
    else c :: collapseWsAux fuel rest

/-- `removeInlineDisclaimers`: the three regexp substitutions, then trim and
whitespace collapse; blank input is returned unchanged. -/
def removeInlineDisclaimers (s : List Char) : List Char :=
  if goTrimSpace s = [] then s
  else
    let s1 := stripParenAux s.length s
    let s2 := stripNoteSentencesAux s1.length true s1
    let s3 := stripPhrasesAux s2.length true s2
    let s4 := goTrimSpace s3
    collapseWsAux s4.length s4

/-- `\r\n` and stray `\r` normalized to `\n` (the two `ReplaceAll` passes). -/
def normNewlines : List Char → List Char
  | [] => []
  | '\r' :: '\n' :: rest => '\n' :: normNewlines rest
  | '\r' :: rest => '\n' :: normNewlines rest
  | c :: rest => c :: normNewlines rest

/-- Backtick or double quote (the cutset of `strings.Trim(out, "` + `\"")`). -/
def isQuoteTick (c : Char) : Bool := c = '"' ∨ c.toNat = 96

/-- Trim the quote/backtick cutset from both ends. -/
def trimQuotes (s : List Char) : List Char :=
  ((s.dropWhile isQuoteTick).reverse.dropWhile isQuoteTick).reverse

/-- `SanitizeAIText`: trim; normalize newlines; strip inline disclaimers;
drop blank and full-line disclaimer lines (stripping inline residue per
line); re-join, trim quotes, collapse whitespace runs, trim. -/
def SanitizeAIText (s0 : List Char) : List Char :=
  let s := goTrimSpace s0
  if s = [] then s
  else
    let s := removeInlineDisclaimers (normNewlines s)
    let filtered := ((s.splitOn '\n').map
        (fun ln => removeInlineDisclaimers (goTrimSpace ln))).filter
      (fun l => l ≠ [] ∧ ¬ startsWithDisclaimer l)
    let out := trimQuotes (List.intercalate "\n".toList filtered)
    goTrimSpace (collapseWsAux out.length out)

/-- `translate.SummarizeText`: blank input yields `ok ""`; otherwise the
fallback providers (Groq, Cohere, Mistral) are tried in order and the first
success with non-blank output is sanitized and returned; if none succeeds the
call errors.  The provider calls are abstracted as their outcome list (input
cleaning and truncation feed the providers and do not otherwise affect the
returned summary). -/
def SummarizeText (text : List Char)
    (providers : List (Except (List Char) (List Char))) : Except (List Char) (List Char) :=
  if goTrimSpace text = [] then .ok []
  else
    match providers.find? (fun r => match r with
        | .ok s => !(goTrimSpace s).isEmpty
        | .error _ => false) with
    | some (.ok s) => .ok (SanitizeAIText s)
    | _ => .error "all summarizers failed".toList

/-! ## Spec-side hash formula (§4.3), for the refinement claim C2 -/

/-- `collapseWhitespace` of §4.3: re-join the whitespace-separated fields with
single spaces. -/
def collapseWhitespace (s : List Char) : List Char :=
  List.intercalate " ".toList (goFields s)

/-- `firstHexChars(digest, n)` of §4.3. -/
def firstHexChars (digest : List Nat) (n : Nat) : List Char := (hexEncode digest).take n

/-- The §4.3 hash formula as the spec words it: the domain is the lowercased,
`www.`-stripped URL *host* (`parseURL`, the `url.Parse` model), `"unknown"`
for an empty link (the parse failures Go can raise — malformed escapes,
control bytes — do not arise in the model). -/
def specNewsHash (title link : List Char) : List Char :=
  let normalizedTitle := collapseWhitespace (goToLower (goTrimSpace title))
  let domain :=
    if link = [] then "unknown".toList
    else goToLower (goTrimPfx "www.".toList (parseURL link).host)
  firstHexChars (sha256Bytes (utf8Bytes (normalizedTitle ++ "|".toList ++ domain))) 16

/-- The amended §4.3 formula: the domain is the lowercased, `www.`-stripped
first `/`-separated segment of the link after stripping a literal `http://`
or `https://` prefix, and `"unknown"` exactly for the empty link. -/
def specNewsHashAmended (title link : List Char) : List Char :=
  let normalizedTitle := collapseWhitespace (goToLower (goTrimSpace title))
  let domain :=
    if link = [] then "unknown".toList
    else
      let stripped := goTrimPfx "https://".toList (goTrimPfx "http://".toList link)
      goToLower (goTrimPfx "www.".toList ((stripped.splitOn '/').headD []))
  firstHexChars (sha256Bytes (utf8Bytes (normalizedTitle ++ "|".toList ++ domain))) 16

/-! ## Theorems -/

/-- **C10.**  On the transactional backend, a failing database read makes both
`IsAlreadySent` and `IsLinkAlreadySent` answer `false` — the same answer an
empty table gives — so the `isHashSent || isLinkSent` publication pre-check
does not block the item. -/
theorem C10_store_read_failure_permits :
    ∀ (e1 e2 : List Char) (h l : List Char) (now ttl : Int),
      PostgresCache.isAlreadySent (.error e1) = false ∧
      PostgresCache.isLinkAlreadySent (.error e2) = false ∧
      publicationBlocked (.error e1) (.error e2) = false ∧
      PostgresCache.isAlreadySent (.ok (PostgresCache.countHash [] h now ttl)) = false ∧
      PostgresCache.isLinkAlreadySent (.ok (PostgresCache.countLink [] l now ttl)) = false := by
  intro e1 e2 h l now ttl
  refine ⟨rfl, rfl, rfl, ?_, ?_⟩ <;>
    simp [PostgresCache.isAlreadySent, PostgresCache.isLinkAlreadySent,
      PostgresCache.countHash, PostgresCache.countLink]

/-- **C9, counterexample.**  A scraped body of exactly 200 bytes does *not*
replace the description: the source guard is `len(fa.Content) > 200`, strict. -/
theorem C9_counterexample :
    (applyFullText { content := "d".toList } (some (List.replicate 200 'a'))).content
      = "d".toList := by decide

/-- **C9 (amended).**  The scraped body replaces the item's content exactly
when it is *longer than* 200 bytes; at 200 bytes or below — or when the
scraper returned nothing for the link — the original description is kept. -/
theorem C9_fulltext_threshold :
    ∀ (n : NewsItem) (body : List Char),
      (200 < goLen body → applyFullText n (some body) = { n with content := body }) ∧
      (¬ 200 < goLen body → applyFullText n (some body) = n) ∧
      applyFullText n none = n := by
  intro n body
  refine ⟨fun h => ?_, fun h => ?_, rfl⟩ <;> simp [applyFullText, h]

/-- **C9, witness.** -/
theorem C9_witness :
    200 < goLen (List.replicate 201 'a') ∧
      applyFullText { content := "d".toList } (some (List.replicate 201 'a'))
        = { content := List.replicate 201 'a' } := by
  have h : 200 < goLen (List.replicate 201 'a') := by decide
  exact ⟨h, (C9_fulltext_threshold { content := "d".toList } (List.replicate 201 'a')).1 h⟩

/-- **C5, counterexample.**  With `maxPrimaryCalls = 3` and a fresh counter,
one *failed* primary (Gemini) call still increments the counter to 1: the
source increments `geminiRequests` after the call regardless of its outcome,
so a failed attempt does consume budget. -/
theorem C5_counterexample : (enrichStep 3 0 {} none {}).2 ≠ 0 := by decide

/-- **C5 (amended).**  When the counter has reached a positive
`maxPrimaryCalls` the primary provider is skipped — the result does not
depend on the primary outcome — and the counter is unchanged; otherwise the
counter is incremented on *every* primary attempt, whether the call succeeds
or fails. -/
theorem C5_budget_counter :
    ∀ (maxG cnt : Int) (n : NewsItem) (scraped : Option (List Char)) (calls : EnrichCalls),
      (0 < maxG ∧ maxG ≤ cnt →
        (enrichStep maxG cnt n scraped calls).2 = cnt ∧
        ∀ p, enrichStep maxG cnt n scraped { calls with primary := p }
              = enrichStep maxG cnt n scraped calls) ∧
      (¬ (0 < maxG ∧ maxG ≤ cnt) →
        (enrichStep maxG cnt n scraped calls).2 = cnt + 1) := by
  intro maxG cnt n scraped calls
  constructor
  · intro h
    constructor
    · simp only [enrichStep, if_pos h]
    · intro p
      simp only [enrichStep, if_pos h]
  · intro h
    simp only [enrichStep, if_neg h]
    rcases calls.primary with e | resp <;> simp

/-- An element violating the predicate survives `dropWhile`. -/
theorem mem_dropWhile_of_not {α} (p : α → Bool) {c : α} (hc : p c = false) :
    ∀ {l : List α}, c ∈ l → c ∈ l.dropWhile p := by
  intro l
  induction l with
  | nil => simp
  | cons a as ih =>
    intro h
    rw [List.dropWhile_cons]
    by_cases hpa : p a
    · rw [if_pos hpa]
      rcases List.mem_cons.mp h with rfl | h'
      · rw [hc] at hpa; cases hpa
      · exact ih h'
    · rw [if_neg hpa]; exact h

/-- A string trims to nothing exactly when it is all whitespace. -/
theorem goTrimSpace_eq_nil_iff {s : List Char} :
    goTrimSpace s = [] ↔ ∀ c ∈ s, isGoSpace c := by
  unfold goTrimSpace
  constructor
  · intro h c hc
    by_contra hns
    have hns' : isGoSpace c = false := by simpa using hns
    rw [List.reverse_eq_nil_iff, List.dropWhile_eq_nil_iff] at h
    have h1 : c ∈ s.dropWhile isGoSpace := mem_dropWhile_of_not _ hns' hc
    have h2 : c ∈ (s.dropWhile isGoSpace).reverse := List.mem_reverse.mpr h1
    have := h c h2
    rw [hns'] at this
    cases this
  · intro h
    have h1 : s.dropWhile isGoSpace = [] :=
      List.dropWhile_eq_nil_iff.mpr fun c hc => h c hc
    simp [h1]

/-- A non-space member of a string survives trimming. -/
theorem mem_goTrimSpace_of_not {s : List Char} {c : Char}
    (hns : isGoSpace c = false) (hc : c ∈ s) : c ∈ goTrimSpace s := by
  unfold goTrimSpace
  exact List.mem_reverse.mpr (mem_dropWhile_of_not _ hns
    (List.mem_reverse.mpr (mem_dropWhile_of_not _ hns hc)))

/-- The rule-based fallback summary never trims to nothing. -/
theorem goTrimSpace_fallbackSummary_ne_nil (content : List Char) :
    goTrimSpace (fallbackSummary content) ≠ [] := by
  unfold fallbackSummary
  by_cases hc : goTrimSpace content = []
  · rw [if_pos hc]; decide
  · rw [if_neg hc]
    have hdot : isGoSpace '.' = false := by decide
    rcases em (((((goTrimSpace content).splitOn '.').map goTrimSpace).filter
        (fun s => ¬ goLen s < 25)).take 2 = []) with hp | hp
    · rw [if_pos hp]
      rcases em (160 < goLen (goTrimSpace content)) with h160 | h160
      · rw [if_pos h160]
        intro habs
        have : isGoSpace '.' = true :=
          goTrimSpace_eq_nil_iff.mp habs '.' (by simp)
        rw [hdot] at this; cases this
      · rw [if_neg h160]
        intro habs
        have hex : ¬ ∀ c ∈ content, isGoSpace c := fun hall =>
          hc (goTrimSpace_eq_nil_iff.mpr hall)
        push_neg at hex
        obtain ⟨ch, hmem, hchns⟩ := hex
        have hchns' : isGoSpace ch = false := by simpa using hchns
        have h1 : ch ∈ goTrimSpace content := mem_goTrimSpace_of_not hchns' hmem
        have := goTrimSpace_eq_nil_iff.mp habs ch h1
        rw [hchns'] at this; cases this
    · rw [if_neg hp]
      intro habs
      have : isGoSpace '.' = true :=
        goTrimSpace_eq_nil_iff.mp habs '.' (by simp)
      rw [hdot] at this; cases this

/-- `titleUpd` leaves the Danish summary alone. -/
theorem titleUpd_summaryDanish (n : NewsItem) (r : Except (List Char) (List Char)) :
    (titleUpd n r).summaryDanish = n.summaryDanish := by
  unfold titleUpd
  rcases r with e | t
  · rfl
  · by_cases h : goTrimSpace t = [] <;> simp [h]

/-- `titleUpd` leaves the Ukrainian summary alone. -/
theorem titleUpd_summaryUkrainian (n : NewsItem) (r : Except (List Char) (List Char)) :
    (titleUpd n r).summaryUkrainian = n.summaryUkrainian := by
  unfold titleUpd
  rcases r with e | t
  · rfl
  · by_cases h : goTrimSpace t = [] <;> simp [h]

/-- The `useOr` guard never surfaces a blank value. -/
theorem goTrimSpace_useOr_ne_nil (r : Except (List Char) (List Char)) (content : List Char) :
    goTrimSpace (useOr r (fallbackSummary content)) ≠ [] := by
  rcases r with e | s
  · simp only [useOr]
    exact goTrimSpace_fallbackSummary_ne_nil content
  · by_cases h : goTrimSpace s = []
    · simp only [useOr, if_pos h]
      exact goTrimSpace_fallbackSummary_ne_nil content
    · simp only [useOr, if_neg h]
      exact h

/-- **C8.**  Sanitation can empty a provider output, but the guards around it
mean an empty sanitized summary is never surfaced: the rule-based fallback
summary never trims to nothing, the `err == nil && TrimSpace(v) != ""` guard
substitutes it whenever a sanitized chain output is blank (in particular
whenever `SummarizeText` returns a summary that sanitation emptied), and in
both fallback branches of the enrichment loop the surfaced Danish and
Ukrainian summaries are non-blank. -/
theorem C8_sanitize_empty_falls_back :
    (∀ content, goTrimSpace (fallbackSummary content) ≠ []) ∧
    (∀ r content, goTrimSpace (useOr r (fallbackSummary content)) ≠ []) ∧
    (∀ text providers s content, SummarizeText text providers = .ok s →
      goTrimSpace s = [] →
      useOr (SummarizeText text providers) (fallbackSummary content)
        = fallbackSummary content) ∧
    (∀ maxG cnt n scraped (calls : EnrichCalls),
      (0 < maxG ∧ maxG ≤ cnt) ∨ (∃ e, calls.primary = .error e) →
      goTrimSpace (enrichStep maxG cnt n scraped calls).1.summaryDanish ≠ [] ∧
      goTrimSpace (enrichStep maxG cnt n scraped calls).1.summaryUkrainian ≠ []) := by
  refine ⟨goTrimSpace_fallbackSummary_ne_nil, goTrimSpace_useOr_ne_nil, ?_, ?_⟩
  · intro text providers s content hok hnil
    rw [hok]
    simp only [useOr, if_pos hnil]
  · intro maxG cnt n scraped calls hcase
    by_cases hb : 0 < maxG ∧ maxG ≤ cnt
    · simp only [enrichStep, if_pos hb, titleUpd_summaryDanish, titleUpd_summaryUkrainian]
      exact ⟨goTrimSpace_useOr_ne_nil _ _, goTrimSpace_useOr_ne_nil _ _⟩
    · rcases hcase with hb' | ⟨e, he⟩
      · exact absurd hb' hb
      · simp only [enrichStep, if_neg hb, he, titleUpd_summaryDanish,
          titleUpd_summaryUkrainian]
        exact ⟨goTrimSpace_useOr_ne_nil _ _, goTrimSpace_useOr_ne_nil _ _⟩

/-- **C8, witness.**  A provider output that sanitation empties (`"Note: x."`)
makes `SummarizeText` return a blank summary, and the surfaced summary is
exactly the rule-based fallback of the content; the enrichment fields are
non-blank in the budget-exhausted branch. -/
theorem C8_witness :
    useOr (SummarizeText "abc".toList [.ok "Note: x.".toList])
        (fallbackSummary "body".toList) = fallbackSummary "body".toList ∧
    goTrimSpace (enrichStep 1 1 {} none {}).1.summaryDanish ≠ [] := by
  constructor
  · exact C8_sanitize_empty_falls_back.2.2.1 "abc".toList [.ok "Note: x.".toList]
      (SanitizeAIText "Note: x.".toList) "body".toList rfl (by decide)
  · exact (C8_sanitize_empty_falls_back.2.2.2 1 1 {} none {} (.inl (by decide))).1

/-- Hash projection of a pointwise hash-preserving map. -/
theorem map_hash_of_preserving (items : List SentRecord) (g : SentRecord → SentRecord)
    (hg : ∀ x, (g x).hash = x.hash) :
    (items.map g).map (fun x => x.hash) = items.map (fun x => x.hash) := by
  rw [List.map_map]
  exact List.map_congr_left fun x _ => hg x

/-- `upsertByHash` keeps the stored hashes distinct. -/
theorem nodup_upsertByHash {items : List SentRecord} (r : SentRecord)
    (h : (items.map (fun x => x.hash)).Nodup) :
    ((upsertByHash items r).map (fun x => x.hash)).Nodup := by
  unfold upsertByHash
  by_cases hany : items.any (fun x => x.hash = r.hash)
  · rw [if_pos hany,
      map_hash_of_preserving items _ (fun x => by by_cases hx : x.hash = r.hash <;> simp [hx])]
    exact h
  · rw [if_neg hany, List.map_append]
    refine List.Nodup.append h (List.nodup_singleton _) ?_
    intro a ha hb
    simp only [List.map_cons, List.map_nil, List.mem_singleton] at hb
    subst hb
    rw [List.mem_map] at ha
    obtain ⟨x, hx, hxh⟩ := ha
    exact hany (List.any_eq_true.mpr ⟨x, hx, by simp [hxh]⟩)

/-- The transactional upsert keeps the stored hashes distinct. -/
theorem nodup_pgMarkAsSent {table : List SentRecord}
    (h t l c s : List Char) (now : Int)
    (hnd : (table.map (fun x => x.hash)).Nodup) :
    ((PostgresCache.markAsSent table h t l c s now).map (fun x => x.hash)).Nodup := by
  unfold PostgresCache.markAsSent
  by_cases hany : table.any (fun x => x.hash = h)
  · rw [if_pos hany,
      map_hash_of_preserving table _ (fun x => by by_cases hx : x.hash = h <;> simp [hx])]
    exact hnd
  · rw [if_neg hany, List.map_append]
    refine List.Nodup.append hnd (List.nodup_singleton _) ?_
    intro a ha hb
    simp only [List.map_cons, List.map_nil, List.mem_singleton] at hb
    subst hb
    rw [List.mem_map] at ha
    obtain ⟨x, hx, hxh⟩ := ha
    exact hany (List.any_eq_true.mpr ⟨x, hx, by simp [hxh]⟩)

/-- A filtered store has distinct hashes when the store does. -/
theorem nodup_map_hash_filter (items : List SentRecord) (p : SentRecord → Bool)
    (h : (items.map (fun x => x.hash)).Nodup) :
    (((items.filter p).map (fun x => x.hash)).Nodup) :=
  h.sublist ((items.filter_sublist).map _)

/-- `FileCache.Load` keeps the stored hashes distinct. -/
theorem nodup_fileLoad (file : List SentRecord) (now ttl : Int) :
    ∀ (items : List SentRecord), (items.map (fun x => x.hash)).Nodup →
      ((FileCache.load items file now ttl).map (fun x => x.hash)).Nodup := by
  induction file with
  | nil => intro items h; exact h
  | cons it rest ih =>
    intro items h
    unfold FileCache.load at ih ⊢
    rw [List.foldl_cons]
    by_cases hit : ttlCutoff now ttl < it.sentAt
    · rw [if_pos hit]; exact ih _ (nodup_upsertByHash it h)
    · rw [if_neg hit]; exact ih _ h

/-- Every file-backend operation keeps the stored hashes distinct. -/
theorem nodup_fileStep (items : List SentRecord) (op : FileOp)
    (h : (items.map (fun x => x.hash)).Nodup) :
    ((FileCache.step items op).map (fun x => x.hash)).Nodup := by
  cases op with
  | load file now ttl => exact nodup_fileLoad file now ttl items h
  | markSent hh t l c s now => exact nodup_upsertByHash _ h
  | cleanup now ttl => exact nodup_map_hash_filter _ _ h

/-- Every transactional operation keeps the stored hashes distinct. -/
theorem nodup_pgStep (table : List SentRecord) (op : PgOp)
    (h : (table.map (fun x => x.hash)).Nodup) :
    ((PostgresCache.step table op).map (fun x => x.hash)).Nodup := by
  cases op with
  | markSent hh t l c s now => exact nodup_pgMarkAsSent hh t l c s now h
  | cleanup now ttl => exact nodup_map_hash_filter _ _ h

/-- Folding file-backend operations preserves hash distinctness. -/
theorem nodup_fileFold (ops : List FileOp) :
    ∀ (s : List SentRecord), (s.map (fun x => x.hash)).Nodup →
      ((ops.foldl FileCache.step s).map (fun x => x.hash)).Nodup := by
  induction ops with
  | nil => intro s h; exact h
  | cons op rest ih =>
    intro s h
    rw [List.foldl_cons]
    exact ih _ (nodup_fileStep s op h)

/-- Folding transactional operations preserves hash distinctness. -/
theorem nodup_pgFold (ops : List PgOp) :
    ∀ (s : List SentRecord), (s.map (fun x => x.hash)).Nodup →
      ((ops.foldl PostgresCache.step s).map (fun x => x.hash)).Nodup := by
  induction ops with
  | nil => intro s h; exact h
  | cons op rest ih =>
    intro s h
    rw [List.foldl_cons]
    exact ih _ (nodup_pgStep s op h)

/-- Filter commutes with a map that preserves the filtered predicate. -/
theorem filter_map_hash_comm (items : List SentRecord) (g : SentRecord → SentRecord)
    (h : List Char) (hg : ∀ x, (g x).hash = x.hash) :
    (items.map g).filter (fun x => x.hash = h)
      = (items.filter (fun x => x.hash = h)).map g := by
  induction items with
  | nil => rfl
  | cons a as ih =>
    rw [List.map_cons, List.filter_cons, List.filter_cons]
    by_cases ha : a.hash = h
    · have hga : (g a).hash = h := by rw [hg a, ha]
      simp [hga, ha, ih]
    · have hga : ¬ (g a).hash = h := by rw [hg a]; exact ha
      simp [hga, ha, ih]

/-- In a store with distinct hashes that carries the hash `h`, the records
with hash `h` form a one-element list. -/
theorem filter_hash_singleton (items : List SentRecord) (h : List Char)
    (hnd : (items.map (fun x => x.hash)).Nodup)
    (hany : items.any (fun x => x.hash = h)) :
    ∃ x0, items.filter (fun x => x.hash = h) = [x0] ∧ x0.hash = h := by
  induction items with
  | nil => simp at hany
  | cons a as ih =>
    rw [List.map_cons, List.nodup_cons] at hnd
    by_cases ha : a.hash = h
    · refine ⟨a, ?_, ha⟩
      have hnone : as.filter (fun x => x.hash = h) = [] := by
        rw [List.filter_eq_nil_iff]
        intro x hx hxh
        rw [decide_eq_true_eq] at hxh
        exact hnd.1 (ha ▸ hxh ▸ List.mem_map_of_mem (fun y => y.hash) hx)
      rw [List.filter_cons, if_pos (by simpa using ha), hnone]
    · have hany' : as.any (fun x => x.hash = h) := by
        rcases List.any_eq_true.mp hany with ⟨x, hx, hxh⟩
        rcases List.mem_cons.mp hx with rfl | hx'
        · exact absurd (by simpa using hxh) ha
        · exact List.any_eq_true.mpr ⟨x, hx', hxh⟩
      obtain ⟨x0, hf, hx0⟩ := ih hnd.2 hany'
      exact ⟨x0, by rw [List.filter_cons, if_neg (by simpa using ha)]; exact hf, hx0⟩

/-- `FileCache.MarkAsSent` on a distinct-hash store leaves exactly one record
under the given hash: the fresh one. -/
theorem fileMark_filter (items : List SentRecord) (h t l c s : List Char) (now : Int)
    (hnd : (items.map (fun x => x.hash)).Nodup) :
    (FileCache.markAsSent items h t l c s now).filter (fun x => x.hash = h)
      = [⟨h, t, l, c, s, now⟩] := by
  unfold FileCache.markAsSent upsertByHash
  by_cases hany : items.any (fun x => x.hash = (⟨h, t, l, c, s, now⟩ : SentRecord).hash)
  · rw [if_pos hany]
    have hcomm := filter_map_hash_comm items
      (fun x => if x.hash = (⟨h, t, l, c, s, now⟩ : SentRecord).hash
                then (⟨h, t, l, c, s, now⟩ : SentRecord) else x) h
      (fun x => by by_cases hx : x.hash = (⟨h, t, l, c, s, now⟩ : SentRecord).hash <;>
        simp [hx])
    rw [hcomm]
    obtain ⟨x0, hf, hx0⟩ := filter_hash_singleton items h hnd (by simpa using hany)
    rw [hf, List.map_cons, List.map_nil, if_pos (by simpa using hx0)]
  · rw [if_neg hany, List.filter_append]
    have hnone : items.filter (fun x => x.hash = h) = [] := by
      rw [List.filter_eq_nil_iff]
      intro x hx hxh
      exact hany (List.any_eq_true.mpr ⟨x, hx, by simpa using hxh⟩)
    rw [hnone]
    simp

/-- The transactional `MarkAsSent` on a distinct-hash table leaves exactly one
row under the given hash, with `sent_at` set to the call's time. -/
theorem pgMark_filter (table : List SentRecord) (h t l c s : List Char) (now : Int)
    (hnd : (table.map (fun x => x.hash)).Nodup) :
    ((PostgresCache.markAsSent table h t l c s now).filter
        (fun x => x.hash = h)).map (fun x => x.sentAt) = [now] := by
  unfold PostgresCache.markAsSent
  by_cases hany : table.any (fun x => x.hash = h)
  · rw [if_pos hany]
    have hcomm := filter_map_hash_comm table
      (fun x => if x.hash = h then { x with sentAt := now } else x) h
      (fun x => by by_cases hx : x.hash = h <;> simp [hx])
    rw [hcomm]
    obtain ⟨x0, hf, hx0⟩ := filter_hash_singleton table h hnd hany
    rw [hf, List.map_cons, List.map_nil, List.map_cons, List.map_nil,
      if_pos hx0]
  · rw [if_neg hany, List.filter_append]
    have hnone : table.filter (fun x => x.hash = h) = [] := by
      rw [List.filter_eq_nil_iff]
      intro x hx hxh
      exact hany (List.any_eq_true.mpr ⟨x, hx, hxh⟩)
    rw [hnone]
    simp

/-- **C1.**  On both sent-store backends, every reachable store holds at most
one record per hash: after any operation sequence the stored hashes are
pairwise distinct (in particular any two records inside the TTL window have
different hashes), and marking the same hash twice leaves exactly one logical
record whose `sentAt` is the later call's time. -/
theorem C1_one_record_per_hash :
    (∀ ops : List FileOp, ((FileCache.run ops).map (fun x => x.hash)).Nodup) ∧
    (∀ ops : List PgOp, ((PostgresCache.run ops).map (fun x => x.hash)).Nodup) ∧
    (∀ (ops : List FileOp) (now ttl : Int),
      ((((FileCache.run ops).filter (fun r => ttlCutoff now ttl < r.sentAt)).map
        (fun x => x.hash)).Nodup)) ∧
    (∀ (ops : List PgOp) (now ttl : Int),
      ((((PostgresCache.run ops).filter (fun r => ttlCutoff now ttl < r.sentAt)).map
        (fun x => x.hash)).Nodup)) ∧
    (∀ (ops : List FileOp) (h t1 l1 c1 s1 t2 l2 c2 s2 : List Char) (now1 now2 : Int),
      ((FileCache.run (ops ++ [.markSent h t1 l1 c1 s1 now1, .markSent h t2 l2 c2 s2 now2])).filter
          (fun x => x.hash = h)).map (fun x => x.sentAt) = [now2]) ∧
    (∀ (ops : List PgOp) (h t1 l1 c1 s1 t2 l2 c2 s2 : List Char) (now1 now2 : Int),
      ((PostgresCache.run (ops ++ [.markSent h t1 l1 c1 s1 now1, .markSent h t2 l2 c2 s2 now2])).filter
          (fun x => x.hash = h)).map (fun x => x.sentAt) = [now2]) := by
  have hfile : ∀ ops : List FileOp, ((FileCache.run ops).map (fun x => x.hash)).Nodup :=
    fun ops => nodup_fileFold ops [] (by simp)
  have hpg : ∀ ops : List PgOp, ((PostgresCache.run ops).map (fun x => x.hash)).Nodup :=
    fun ops => nodup_pgFold ops [] (by simp)
  refine ⟨hfile, hpg, ?_, ?_, ?_, ?_⟩
  · intro ops now ttl
    exact nodup_map_hash_filter _ _ (hfile ops)
  · intro ops now ttl
    exact nodup_map_hash_filter _ _ (hpg ops)
  · intro ops h t1 l1 c1 s1 t2 l2 c2 s2 now1 now2
    have hrun : FileCache.run (ops ++ [.markSent h t1 l1 c1 s1 now1, .markSent h t2 l2 c2 s2 now2])
        = FileCache.markAsSent (FileCache.markAsSent (FileCache.run ops) h t1 l1 c1 s1 now1)
            h t2 l2 c2 s2 now2 := by
      unfold FileCache.run
      rw [List.foldl_append]
      rfl
    have hnd1 : ((FileCache.markAsSent (FileCache.run ops) h t1 l1 c1 s1 now1).map
        (fun x => x.hash)).Nodup := nodup_upsertByHash _ (hfile ops)
    rw [hrun, fileMark_filter _ _ _ _ _ _ _ hnd1]
    rfl
  · intro ops h t1 l1 c1 s1 t2 l2 c2 s2 now1 now2
    have hrun : PostgresCache.run (ops ++ [.markSent h t1 l1 c1 s1 now1, .markSent h t2 l2 c2 s2 now2])
        = PostgresCache.markAsSent
            (PostgresCache.markAsSent (PostgresCache.run ops) h t1 l1 c1 s1 now1)
            h t2 l2 c2 s2 now2 := by
      unfold PostgresCache.run
      rw [List.foldl_append]
      rfl
    have hnd1 : ((PostgresCache.markAsSent (PostgresCache.run ops) h t1 l1 c1 s1 now1).map
        (fun x => x.hash)).Nodup := nodup_pgMarkAsSent h t1 l1 c1 s1 now1 (hpg ops)
    rw [hrun]
    exact pgMark_filter _ _ _ _ _ _ _ hnd1

/-- **C3.**  For every incoming feed item that passes the age gate, the
candidate loop checks and updates its in-run structures in the fixed order
normalized-URL set, content-hash set (full-hex SHA-1 of the lowercased
title+description), similarity-key set (host | top-6 significant words |
6-hour bucket), then the 2-gram-shingle Jaccard (≥ 0.55) comparison against
every previously accepted title — dropping the item at the first collision,
with exactly the sets already checked updated; an item surviving all four
stages is scored, and accepted as a candidate (its title joining the accepted
titles) iff its score is non-zero. -/
theorem C3_dedup_order :
    ∀ (score : FeedItem → List Char × Int) (image : FeedItem → List Char)
      (maxAge now : Int) (st : RunState) (item : FeedItem),
      item.publishedParsed.any (fun t => maxAge < now - t) = false →
      (normalizeURL item.link ∈ st.seenLinks →
        processItem score image maxAge now st item = st) ∧
      (normalizeURL item.link ∉ st.seenLinks →
        makeNewsKey item.title item.description ∈ st.seenContent →
        processItem score image maxAge now st item
          = { st with seenLinks := st.seenLinks ++ [normalizeURL item.link] }) ∧
      (normalizeURL item.link ∉ st.seenLinks →
        makeNewsKey item.title item.description ∉ st.seenContent →
        makeSimilarityKey item now ∈ st.seenSimilar →
        processItem score image maxAge now st item
          = { st with seenLinks := st.seenLinks ++ [normalizeURL item.link],
                      seenContent := st.seenContent ++ [makeNewsKey item.title item.description] }) ∧
      (normalizeURL item.link ∉ st.seenLinks →
        makeNewsKey item.title item.description ∉ st.seenContent →
        makeSimilarityKey item now ∉ st.seenSimilar →
        (∃ t ∈ st.seenTitles, isSimilarTitle item.title t = true) →
        processItem score image maxAge now st item
          = { st with seenLinks := st.seenLinks ++ [normalizeURL item.link],
                      seenContent := st.seenContent ++ [makeNewsKey item.title item.description],
                      seenSimilar := st.seenSimilar ++ [makeSimilarityKey item now] }) ∧
      (normalizeURL item.link ∉ st.seenLinks →
        makeNewsKey item.title item.description ∉ st.seenContent →
        makeSimilarityKey item now ∉ st.seenSimilar →
        (∀ t ∈ st.seenTitles, isSimilarTitle item.title t = false) →
        (score item).2 = 0 →
        processItem score image maxAge now st item
          = { st with seenLinks := st.seenLinks ++ [normalizeURL item.link],
                      seenContent := st.seenContent ++ [makeNewsKey item.title item.description],
                      seenSimilar := st.seenSimilar ++ [makeSimilarityKey item now] }) ∧
      (normalizeURL item.link ∉ st.seenLinks →
        makeNewsKey item.title item.description ∉ st.seenContent →
        makeSimilarityKey item now ∉ st.seenSimilar →
        (∀ t ∈ st.seenTitles, isSimilarTitle item.title t = false) →
        (score item).2 ≠ 0 →
        processItem score image maxAge now st item
          = { st with seenLinks := st.seenLinks ++ [normalizeURL item.link],
                      seenContent := st.seenContent ++ [makeNewsKey item.title item.description],
                      seenSimilar := st.seenSimilar ++ [makeSimilarityKey item now],
                      seenTitles := st.seenTitles ++ [item.title],
                      candidates := st.candidates ++
                        [{ title := item.title, content := item.description,
                           link := item.link,
                           published := item.publishedParsed.getD now,
                           category := (score item).1, score := (score item).2,
                           sourceName := item.sourceName,
                           sourceLang := item.sourceLang,
                           sourceCategories := item.sourceCategories,
                           imageURL := image item, imageAlt := item.title }] }) := by
  intro score image maxAge now st item hage
  have hageF : ¬ item.publishedParsed.any (fun t => maxAge < now - t) = true := by
    rw [hage]; exact Bool.false_ne_true
  refine ⟨?_, ?_, ?_, ?_, ?_, ?_⟩
  · intro h1
    simp only [processItem, if_neg hageF, if_pos h1]
  · intro h1 h2
    simp only [processItem, if_neg hageF, if_neg h1, if_pos h2]
  · intro h1 h2 h3
    simp only [processItem, if_neg hageF, if_neg h1, if_neg h2, if_pos h3]
  · intro h1 h2 h3 h4
    have hany : st.seenTitles.any (fun t => isSimilarTitle item.title t) = true := by
      rcases h4 with ⟨t, ht, hsim⟩
      exact List.any_eq_true.mpr ⟨t, ht, hsim⟩
    simp only [processItem, if_neg hageF, if_neg h1, if_neg h2, if_neg h3, hany, if_true]
  · intro h1 h2 h3 h4 h5
    have hany : st.seenTitles.any (fun t => isSimilarTitle item.title t) = false := by
      rw [Bool.eq_false_iff]
      intro habs
      rcases List.any_eq_true.mp habs with ⟨t, ht, hsim⟩
      rw [h4 t ht] at hsim
      cases hsim
    simp only [processItem, if_neg hageF, if_neg h1, if_neg h2, if_neg h3, hany,
      Bool.false_eq_true, if_false, h5, if_pos]
  · intro h1 h2 h3 h4 h5
    have hany : st.seenTitles.any (fun t => isSimilarTitle item.title t) = false := by
      rw [Bool.eq_false_iff]
      intro habs
      rcases List.any_eq_true.mp habs with ⟨t, ht, hsim⟩
      rw [h4 t ht] at hsim
      cases hsim
    simp only [processItem, if_neg hageF, if_neg h1, if_neg h2, if_neg h3, hany,
      Bool.false_eq_true, if_false, if_neg h5]

/-- **C3, witness.** -/
theorem C3_witness :
    (({ link := "https://a.dk/x".toList } : FeedItem).publishedParsed.any
        (fun t => (86400 : Int) < 0 - t) = false) ∧
    (normalizeURL "https://a.dk/x".toList
      ∈ [normalizeURL "https://a.dk/x".toList]) ∧
    processItem (fun _ => ("x".toList, 1)) (fun _ => []) 86400 0
        { seenLinks := [normalizeURL "https://a.dk/x".toList] }
        { link := "https://a.dk/x".toList }
      = { seenLinks := [normalizeURL "https://a.dk/x".toList] } := by
  refine ⟨rfl, List.mem_singleton.mpr rfl, ?_⟩
  exact (C3_dedup_order (fun _ => ("x".toList, 1)) (fun _ => []) 86400 0
    { seenLinks := [normalizeURL "https://a.dk/x".toList] }
    { link := "https://a.dk/x".toList } rfl).1 (List.mem_singleton.mpr rfl)

/-- The selector's strict comparator, unfolded. -/
theorem selLess_iff (a b : NewsItem) :
    selLess a b = true ↔ b.score < a.score ∨ (a.score = b.score ∧ b.published < a.published) := by
  unfold selLess
  by_cases h : a.score = b.score
  · simp [h]
  · simp only [ne_eq, h, not_false_eq_true, if_true, decide_eq_true_eq]
    constructor
    · exact Or.inl
    · rintro (hlt | ⟨heq, _⟩)
      · exact hlt
      · exact heq.elim

/-- The selector's non-strict order, unfolded. -/
theorem selLe_iff (a b : NewsItem) :
    selLe a b = true ↔ b.score < a.score ∨ (a.score = b.score ∧ b.published ≤ a.published) := by
  unfold selLe
  rw [decide_eq_true_iff, selLess_iff]
  omega

/-- `selLe` is total. -/
theorem selLe_total (a b : NewsItem) : selLe a b || selLe b a := by
  rw [Bool.or_eq_true, selLe_iff, selLe_iff]
  omega

/-- `selLe` is transitive. -/
theorem selLe_trans (a b c : NewsItem) :
    selLe a b → selLe b c → selLe a c := by
  simp only [selLe_iff]
  omega

/-- Appending one item bumps its source tally by one. -/
theorem countBySource_append_one (out : List NewsItem) (c : NewsItem) (s : List Char) :
    countBySource (out ++ [c]) s
      = countBySource out s + (if c.sourceName = s then 1 else 0) := by
  unfold countBySource
  rw [List.filter_append, List.length_append]
  congr 1
  by_cases h : c.sourceName = s <;> simp [h]

/-- Appending one item bumps its category tally by one. -/
theorem countByCategory_append_one (out : List NewsItem) (c : NewsItem) (s : List Char) :
    countByCategory (out ++ [c]) s
      = countByCategory out s + (if c.category = s then 1 else 0) := by
  unfold countByCategory
  rw [List.filter_append, List.length_append]
  congr 1
  by_cases h : c.category = s <;> simp [h]

/-- The greedy pass never grows past the limit. -/
theorem greedyPass_length (limit ps pc : Int) :
    ∀ (cands out : List NewsItem), (out.length : Int) ≤ limit →
      ((greedyPass limit ps pc cands out).length : Int) ≤ limit := by
  intro cands
  induction cands with
  | nil => intro out h; simpa [greedyPass] using h
  | cons c rest ih =>
    intro out h
    simp only [greedyPass]
    by_cases h1 : limit ≤ (out.length : Int)
    · rw [if_pos h1]; exact h
    · rw [if_neg h1]
      by_cases h2 : c.link = []
      · rw [if_pos h2]; exact ih out h
      · rw [if_neg h2]
        by_cases h3 : 0 < ps ∧ ps ≤ (countBySource out c.sourceName : Int)
        · rw [if_pos h3]; exact ih out h
        · rw [if_neg h3]
          by_cases h4 : 0 < pc ∧ pc ≤ (countByCategory out c.category : Int)
          · rw [if_pos h4]; exact ih out h
          · rw [if_neg h4]
            apply ih
            rw [List.length_append, List.length_singleton]
            push_cast
            omega

/-- The fill pass never grows past the limit. -/
theorem fillPass_length (limit : Int) :
    ∀ (cands out : List NewsItem), (out.length : Int) ≤ limit →
      ((fillPass limit cands out).length : Int) ≤ limit := by
  intro cands
  induction cands with
  | nil => intro out h; simpa [fillPass] using h
  | cons c rest ih =>
    intro out h
    simp only [fillPass]
    by_cases h1 : limit ≤ (out.length : Int)
    · rw [if_pos h1]; exact h
    · rw [if_neg h1]
      by_cases h2 : out.any (fun x => x.link = c.link)
      · rw [if_pos h2]; exact ih out h
      · rw [if_neg h2]
        apply ih
        rw [List.length_append, List.length_singleton]
        push_cast
        omega

/-- With a positive per-source cap, the greedy pass keeps every source at or
below the cap. -/
theorem greedyPass_src_cap (limit ps pc : Int) (hps : 0 < ps) :
    ∀ (cands out : List NewsItem),
      (∀ s, (countBySource out s : Int) ≤ ps) →
      ∀ s, (countBySource (greedyPass limit ps pc cands out) s : Int) ≤ ps := by
  intro cands
  induction cands with
  | nil => intro out h s; simpa [greedyPass] using h s
  | cons c rest ih =>
    intro out hout s
    simp only [greedyPass]
    by_cases h1 : limit ≤ (out.length : Int)
    · rw [if_pos h1]; exact hout s
    · rw [if_neg h1]
      by_cases h2 : c.link = []
      · rw [if_pos h2]; exact ih out hout s
      · rw [if_neg h2]
        by_cases h3 : 0 < ps ∧ ps ≤ (countBySource out c.sourceName : Int)
        · rw [if_pos h3]; exact ih out hout s
        · rw [if_neg h3]
          by_cases h4 : 0 < pc ∧ pc ≤ (countByCategory out c.category : Int)
          · rw [if_pos h4]; exact ih out hout s
          · rw [if_neg h4]
            apply ih
            intro s'
            rw [countBySource_append_one]
            have hlt : (countBySource out c.sourceName : Int) < ps := by
              rcases not_and_or.mp h3 with h | h
              · exact absurd hps h
              · omega
            by_cases hs : c.sourceName = s'
            · rw [if_pos hs]
              push_cast
              rw [← hs]
              omega
            · rw [if_neg hs]
              push_cast
              have := hout s'
              omega

/-- With a positive per-category cap, the greedy pass keeps every category at
or below the cap. -/
theorem greedyPass_cat_cap (limit ps pc : Int) (hpc : 0 < pc) :
    ∀ (cands out : List NewsItem),
      (∀ s, (countByCategory out s : Int) ≤ pc) →
      ∀ s, (countByCategory (greedyPass limit ps pc cands out) s : Int) ≤ pc := by
  intro cands
  induction cands with
  | nil => intro out h s; simpa [greedyPass] using h s
  | cons c rest ih =>
    intro out hout s
    simp only [greedyPass]
    by_cases h1 : limit ≤ (out.length : Int)
    · rw [if_pos h1]; exact hout s
    · rw [if_neg h1]
      by_cases h2 : c.link = []
      · rw [if_pos h2]; exact ih out hout s
      · rw [if_neg h2]
        by_cases h3 : 0 < ps ∧ ps ≤ (countBySource out c.sourceName : Int)
        · rw [if_pos h3]; exact ih out hout s
        · rw [if_neg h3]
          by_cases h4 : 0 < pc ∧ pc ≤ (countByCategory out c.category : Int)
          · rw [if_pos h4]; exact ih out hout s
          · rw [if_neg h4]
            apply ih
            intro s'
            rw [countByCategory_append_one]
            have hlt : (countByCategory out c.category : Int) < pc := by
              rcases not_and_or.mp h4 with h | h
              · exact absurd hpc h
              · omega
            by_cases hs : c.category = s'
            · rw [if_pos hs]
              push_cast
              rw [← hs]
              omega
            · rw [if_neg hs]
              push_cast
              have := hout s'
              omega

/-- Members of the greedy output come from the candidates or the accumulator. -/
theorem mem_greedyPass (limit ps pc : Int) :
    ∀ (cands out : List NewsItem) (x : NewsItem),
      x ∈ greedyPass limit ps pc cands out → x ∈ cands ∨ x ∈ out := by
  intro cands
  induction cands with
  | nil => intro out x hx; exact Or.inr (by simpa [greedyPass] using hx)
  | cons c rest ih =>
    intro out x hx
    simp only [greedyPass] at hx
    by_cases h1 : limit ≤ (out.length : Int)
    · rw [if_pos h1] at hx; exact Or.inr hx
    · rw [if_neg h1] at hx
      by_cases h2 : c.link = []
      · rw [if_pos h2] at hx
        rcases ih out x hx with h | h
        · exact Or.inl (List.mem_cons_of_mem _ h)
        · exact Or.inr h
      · rw [if_neg h2] at hx
        by_cases h3 : 0 < ps ∧ ps ≤ (countBySource out c.sourceName : Int)
        · rw [if_pos h3] at hx
          rcases ih out x hx with h | h
          · exact Or.inl (List.mem_cons_of_mem _ h)
          · exact Or.inr h
        · rw [if_neg h3] at hx
          by_cases h4 : 0 < pc ∧ pc ≤ (countByCategory out c.category : Int)
          · rw [if_pos h4] at hx
            rcases ih out x hx with h | h
            · exact Or.inl (List.mem_cons_of_mem _ h)
            · exact Or.inr h
          · rw [if_neg h4] at hx
            rcases ih (out ++ [c]) x hx with h | h
            · exact Or.inl (List.mem_cons_of_mem _ h)
            · rcases List.mem_append.mp h with h' | h'
              · exact Or.inr h'
              · rw [List.mem_singleton] at h'
                exact Or.inl (h' ▸ List.mem_cons_self _ _)

/-- Members of the fill output come from the candidates or the accumulator. -/
theorem mem_fillPass (limit : Int) :
    ∀ (cands out : List NewsItem) (x : NewsItem),
      x ∈ fillPass limit cands out → x ∈ cands ∨ x ∈ out := by
  intro cands
  induction cands with
  | nil => intro out x hx; exact Or.inr (by simpa [fillPass] using hx)
  | cons c rest ih =>
    intro out x hx
    simp only [fillPass] at hx
    by_cases h1 : limit ≤ (out.length : Int)
    · rw [if_pos h1] at hx; exact Or.inr hx
    · rw [if_neg h1] at hx
      by_cases h2 : out.any (fun y => y.link = c.link)
      · rw [if_pos h2] at hx
        rcases ih out x hx with h | h
        · exact Or.inl (List.mem_cons_of_mem _ h)
        · exact Or.inr h
      · rw [if_neg h2] at hx
        rcases ih (out ++ [c]) x hx with h | h
        · exact Or.inl (List.mem_cons_of_mem _ h)
        · rcases List.mem_append.mp h with h' | h'
          · exact Or.inr h'
          · rw [List.mem_singleton] at h'
            exact Or.inl (h' ▸ List.mem_cons_self _ _)

/-- **C4.**  The Selector over the working pool of the top `4 × limit` sorted
candidates: the output is empty for a non-positive limit and never longer
than `limit`; every output item comes from the pool; the output is sorted by
the stable score-descending, time-descending order; and in the
strictly-enforced greedy output no source and no category exceeds its
(positive) cap. -/
theorem C4_selector :
    ∀ (sorted : List NewsItem) (limit perSource perCategory : Int),
      (limit ≤ 0 → selectionStage sorted limit perSource perCategory = []) ∧
      (0 < limit →
        ((selectionStage sorted limit perSource perCategory).length : Int) ≤ limit) ∧
      (∀ x ∈ selectionStage sorted limit perSource perCategory,
        x ∈ sorted.take (4 * limit).toNat) ∧
      ((selectionStage sorted limit perSource perCategory).Pairwise
        (fun a b => selLe a b = true)) ∧
      (0 < perSource → ∀ s,
        (countBySource (greedyPass limit perSource perCategory
          (sorted.take (4 * limit).toNat) []) s : Int) ≤ perSource) ∧
      (0 < perCategory → ∀ s,
        (countByCategory (greedyPass limit perSource perCategory
          (sorted.take (4 * limit).toNat) []) s : Int) ≤ perCategory) := by
  intro sorted limit ps pc
  set pool := sorted.take (4 * limit).toNat with hpool
  refine ⟨?_, ?_, ?_, ?_, ?_, ?_⟩
  · intro h
    simp [selectionStage, selectDiverse, if_pos h]
  · intro h
    simp only [selectionStage, selectDiverse, if_neg (by omega : ¬ limit ≤ 0)]
    rw [List.length_mergeSort]
    have hg : ((greedyPass limit ps pc pool []).length : Int) ≤ limit :=
      greedyPass_length limit ps pc pool [] (by simp; omega)
    by_cases hf : ((greedyPass limit ps pc pool []).length : Int) < limit
    · rw [if_pos hf]
      exact fillPass_length limit pool _ hg
    · rw [if_neg hf]
      exact hg
  · intro x hx
    by_cases h : limit ≤ 0
    · simp [selectionStage, selectDiverse, if_pos h] at hx
    · simp only [selectionStage, selectDiverse, if_neg h, List.mem_mergeSort] at hx
      by_cases hf : ((greedyPass limit ps pc pool []).length : Int) < limit
      · rw [if_pos hf] at hx
        rcases mem_fillPass limit pool _ x hx with h' | h'
        · exact h'
        · rcases mem_greedyPass limit ps pc pool [] x h' with h'' | h''
          · exact h''
          · simp at h''
      · rw [if_neg hf] at hx
        rcases mem_greedyPass limit ps pc pool [] x hx with h'' | h''
        · exact h''
        · simp at h''
  · by_cases h : limit ≤ 0
    · simp [selectionStage, selectDiverse, if_pos h]
    · simp only [selectionStage, selectDiverse, if_neg h]
      exact List.sorted_mergeSort (fun a b c => selLe_trans a b c) selLe_total _
  · intro hps s
    exact greedyPass_src_cap limit ps pc hps pool [] (fun s' => by simp [countBySource]; omega) s
  · intro hpc s
    exact greedyPass_cat_cap limit ps pc hpc pool [] (fun s' => by simp [countByCategory]; omega) s

/-- **C4, witness.** -/
theorem C4_witness :
    (0 < (2 : Int) →
      ((selectionStage [{ link := "l".toList, score := 3 }] 2 2 2).length : Int) ≤ 2) ∧
    (0 < (2 : Int) → ∀ s,
      (countBySource (greedyPass 2 2 2
        (([{ link := "l".toList, score := 3 }] : List NewsItem).take (4 * (2 : Int)).toNat) []) s : Int) ≤ 2) :=
  ⟨(C4_selector [{ link := "l".toList, score := 3 }] 2 2 2).2.1,
   (C4_selector [{ link := "l".toList, score := 3 }] 2 2 2).2.2.2.2.1⟩

/-- `Char.ofNat` round-trips below the surrogate range. -/
theorem toNat_charOfNat {n : Nat} (h : n < 55296) : (Char.ofNat n).toNat = n := by
  have hv : n.isValidChar := Or.inl h
  rw [Char.ofNat, dif_pos hv]
  rfl

/-- Lowering after raising is lowering (ASCII). -/
theorem toLowerChar_toUpperChar (c : Char) :
    toLowerChar (toUpperChar c) = toLowerChar c := by
  unfold toUpperChar
  by_cases h : 97 ≤ c.toNat ∧ c.toNat ≤ 122
  · rw [if_pos h]
    have ht : (Char.ofNat (c.toNat - 32)).toNat = c.toNat - 32 := toNat_charOfNat (by omega)
    unfold toLowerChar
    rw [ht, if_pos (by omega : 65 ≤ c.toNat - 32 ∧ c.toNat - 32 ≤ 90),
      if_neg (by omega : ¬ (65 ≤ c.toNat ∧ c.toNat ≤ 90))]
    have h32 : c.toNat - 32 + 32 = c.toNat := by omega
    rw [h32, Char.ofNat_toNat]
  · rw [if_neg h]

/-- Lowercasing an uppercased string lowers the original. -/
theorem goToLower_goToUpper (s : List Char) : goToLower (goToUpper s) = goToLower s := by
  unfold goToLower goToUpper
  rw [List.map_map]
  exact List.map_congr_left fun c _ => toLowerChar_toUpperChar c

/-- Uppercasing does not move characters in or out of the whitespace class. -/
theorem isGoSpace_toUpperChar (c : Char) : isGoSpace (toUpperChar c) = isGoSpace c := by
  unfold toUpperChar
  by_cases h : 97 ≤ c.toNat ∧ c.toNat ≤ 122
  · rw [if_pos h]
    have ht : (Char.ofNat (c.toNat - 32)).toNat = c.toNat - 32 := toNat_charOfNat (by omega)
    have h1 : isGoSpace (Char.ofNat (c.toNat - 32)) = false := by
      simp only [isGoSpace, ht, decide_eq_false_iff_not]
      omega
    have h2 : isGoSpace c = false := by
      simp only [isGoSpace, decide_eq_false_iff_not]
      omega
    rw [h1, h2]
  · rw [if_neg h]

/-- Trimming commutes with uppercasing. -/
theorem goTrimSpace_goToUpper (s : List Char) :
    goTrimSpace (goToUpper s) = goToUpper (goTrimSpace s) := by
  have hp : isGoSpace ∘ toUpperChar = isGoSpace := funext isGoSpace_toUpperChar
  unfold goTrimSpace goToUpper
  rw [List.dropWhile_map, hp, ← List.map_reverse, List.dropWhile_map, hp, ← List.map_reverse]

/-- Two spaces of padding on each side trim away. -/
theorem goTrimSpace_pad (s : List Char) :
    goTrimSpace (' ' :: ' ' :: (s ++ [' ', ' '])) = goTrimSpace s := by
  unfold goTrimSpace
  have hsp : isGoSpace ' ' = true := by decide
  rw [List.dropWhile_cons, if_pos hsp, List.dropWhile_cons, if_pos hsp,
    List.dropWhile_append]
  by_cases he : (s.dropWhile isGoSpace).isEmpty
  · rw [if_pos he]
    rw [List.isEmpty_iff] at he
    rw [he]
    decide
  · rw [if_neg he, List.reverse_append]
    have h2 : ([' ', ' '] : List Char).reverse = [' ', ' '] := rfl
    rw [h2]
    rw [show ([' ', ' '] : List Char) ++ (s.dropWhile isGoSpace).reverse
        = ' ' :: ' ' :: (s.dropWhile isGoSpace).reverse from rfl]
    rw [List.dropWhile_cons, if_pos hsp, List.dropWhile_cons, if_pos hsp]

/-- Padding with spaces and uppercasing, rewritten as a single map. -/
theorem goToUpper_pad (t : List Char) :
    "  ".toList ++ goToUpper t ++ "  ".toList
      = goToUpper (' ' :: ' ' :: (t ++ [' ', ' '])) := by
  have hsp : toUpperChar ' ' = ' ' := by decide
  simp [goToUpper, hsp]

/-- The normalized title is invariant under space padding and uppercasing. -/
theorem normTitle_pad_upper (t : List Char) :
    goToLower (goTrimSpace ("  ".toList ++ goToUpper t ++ "  ".toList))
      = goToLower (goTrimSpace t) := by
  rw [goToUpper_pad, goTrimSpace_goToUpper, goToLower_goToUpper, goTrimSpace_pad]

/-- Appending a fragment commutes with stripping a `#`-free literal prefix. -/
theorem goTrimPfx_append_frag (p l : List Char) (hp : '#' ∉ p) :
    goTrimPfx p (l ++ "#fragment".toList) = goTrimPfx p l ++ "#fragment".toList := by
  unfold goTrimPfx
  by_cases hpl : p <+: l
  · obtain ⟨r, rfl⟩ := hpl
    have h1 : p.isPrefixOf (p ++ r) = true :=
      List.isPrefixOf_iff_prefix.mpr (List.prefix_append p r)
    have h2 : p.isPrefixOf ((p ++ r) ++ "#fragment".toList) = true := by
      rw [ List.isPrefixOf_iff_prefix, List.append_assoc]
      exact List.prefix_append p _
    rw [if_pos h1, if_pos h2, List.append_assoc, List.drop_left, List.drop_left]
  · have hni : ¬ p <+: (l ++ "#fragment".toList) := by
      intro hcontra
      rcases List.prefix_or_prefix_of_prefix hcontra (List.prefix_append l _) with hcase | hcase
      · exact hpl hcase
      · obtain ⟨r, rfl⟩ := hcase
        rw [List.prefix_append_right_inj] at hcontra
        rcases r with _ | ⟨c, r'⟩
        · exact hpl (by simp)
        · obtain ⟨t, ht⟩ := hcontra
          have hF : "#fragment".toList = '#' :: "fragment".toList := rfl
          rw [List.cons_append, hF] at ht
          have hc : c = '#' := (List.cons.injEq _ _ _ _).mp ht |>.1
          exact hp (List.mem_append.mpr (Or.inr (hc ▸ List.mem_cons_self c r')))
    rw [if_neg (by simpa using hni), if_neg (by simpa using hpl)]

/-- The head of `strings.Split(s, sep)` is the run before the first
separator. -/
theorem splitOn_headD_takeWhile (c : Char) (s : List Char) :
    (s.splitOn c).headD [] = s.takeWhile (fun d => d ≠ c) := by
  induction s with
  | nil => rfl
  | cons a as ih =>
    rw [List.splitOn, List.splitOnP_cons]
    by_cases h : a = c
    · simp [h]
    · have hbeq : (a == c) = false := by simpa using h
      rw [if_neg (by simp [hbeq])]
      obtain ⟨hd, tl, hsplit⟩ :=
        List.exists_cons_of_ne_nil (List.splitOnP_ne_nil _ as)
      rw [List.takeWhile_cons, if_pos (by simpa using h)]
      rw [List.splitOn] at ih
      rw [hsplit] at ih ⊢
      simp only [List.modifyHead, List.headD_cons] at ih ⊢
      rw [ih]

/-- `takeWhile (· ≠ sep)` ignores anything appended after a separator. -/
theorem takeWhile_ne_append (x F : List Char) (h : '/' ∈ x) :
    (x ++ F).takeWhile (fun d => d ≠ '/') = x.takeWhile (fun d => d ≠ '/') := by
  induction x with
  | nil => cases h
  | cons a as ih =>
    by_cases ha : a = '/'
    · subst ha
      rw [List.cons_append, List.takeWhile_cons, List.takeWhile_cons]
      simp
    · rcases List.mem_cons.mp h with h' | h'
      · exact absurd h'.symm ha
      · rw [List.cons_append, List.takeWhile_cons, List.takeWhile_cons,
          if_pos (by simpa using ha), if_pos (by simpa using ha), ih h']

/-- Appending `#fragment` to a link whose scheme-stripped form has a path
separator leaves `extractDomain` unchanged. -/
theorem extractDomain_append_frag (l : List Char)
    (h : '/' ∈ goTrimPfx "https://".toList (goTrimPfx "http://".toList l)) :
    extractDomain (l ++ "#fragment".toList) = extractDomain l := by
  have hl : l ≠ [] := by
    rintro rfl
    revert h
    decide
  have hlf : l ++ "#fragment".toList ≠ [] := by
    intro habs
    exact hl (List.append_eq_nil.mp habs).1
  unfold extractDomain
  rw [if_neg hlf, if_neg hl]
  rw [goTrimPfx_append_frag _ _ (by decide), goTrimPfx_append_frag _ _ (by decide)]
  simp only [splitOn_headD_takeWhile]
  rw [takeWhile_ne_append _ _ h]

/-- **C6, counterexample.**  At `title = "t"`, `link = "https://example.com"`
the claimed equation fails: the link has no path separator, so the appended
`#fragment` lands in the extracted domain (`example.com#fragment`) and the
hash changes. -/
theorem C6_counterexample :
    GenerateNewsHash "t".toList "https://example.com".toList
      ≠ GenerateNewsHash "  T  ".toList "https://example.com#fragment".toList := by
  decide

/-- **C6 (amended).**  For ASCII titles the publication hash is invariant
under surrounding whitespace and upper-casing of the title (the ASCII-title
restriction marks where the embedding is faithful: Go's full Unicode case
tables contain one-way rows such as `ſ`→`S`, `ς`→`Σ`, `µ`→`Μ` for which
`ToLower` does not undo `ToUpper`, so the program's invariance fails on such
titles); appending `#fragment` to the link additionally preserves the hash
whenever the link's scheme-stripped form contains a `/` (so the fragment
lands after the first path separator rather than inside the extracted
domain). -/
theorem C6_hash_invariance :
    (∀ title link, (∀ c ∈ title, c.toNat < 128) →
      GenerateNewsHash ("  ".toList ++ goToUpper title ++ "  ".toList) link
        = GenerateNewsHash title link) ∧
    (∀ title link, (∀ c ∈ title, c.toNat < 128) →
      '/' ∈ goTrimPfx "https://".toList (goTrimPfx "http://".toList link) →
      GenerateNewsHash ("  ".toList ++ goToUpper title ++ "  ".toList)
          (link ++ "#fragment".toList)
        = GenerateNewsHash title link) := by
  constructor
  · intro title link _
    unfold GenerateNewsHash
    rw [normTitle_pad_upper]
  · intro title link _ h
    unfold GenerateNewsHash
    rw [normTitle_pad_upper, extractDomain_append_frag link h]

/-- **C6, witness.** -/
theorem C6_witness :
    (∀ c ∈ "Ab".toList, c.toNat < 128) ∧
    ('/' ∈ goTrimPfx "https://".toList (goTrimPfx "http://".toList "https://a.dk/x".toList)) ∧
    GenerateNewsHash ("  ".toList ++ goToUpper "Ab".toList ++ "  ".toList)
        ("https://a.dk/x".toList ++ "#fragment".toList)
      = GenerateNewsHash "Ab".toList "https://a.dk/x".toList :=
  ⟨by decide, by decide,
   C6_hash_invariance.2 "Ab".toList "https://a.dk/x".toList (by decide) (by decide)⟩

/-- **C2, counterexample.**  At `link = "ftp://example.com/x"` the code's hash
disagrees with the spec's formula: the code's `extractDomain` strips only
literal `http://`/`https://` prefixes and takes the first `/`-segment, giving
the domain `"ftp:"`, while the lowercased URL host of the parseable link is
`"example.com"`. -/
theorem C2_counterexample :
    GenerateNewsHash "t".toList "ftp://example.com/x".toList
      ≠ specNewsHash "t".toList "ftp://example.com/x".toList := by
  decide

/-- **C2 (amended).**  For every title and link the publication hash equals
the first 16 hex characters of SHA-256 over
`collapseWhitespace(lowercase(trim(title))) + "|" + domain`, where the domain
is the lowercased, `www.`-stripped first `/`-segment of the link after
stripping a literal `http://`/`https://` prefix, and `"unknown"` exactly when
the link is empty. -/
theorem C2_hash_formula :
    ∀ title link, GenerateNewsHash title link = specNewsHashAmended title link := by
  intro title link
  rfl

/-- **C7, counterexample.**  The empty string compared with itself: its
shingle set is empty, so `jaccardSimilarity` returns `0.0`, not `1.0` — the
claim's "every string compared with itself yields 1.0" fails for strings
whose shingle set is empty. -/
theorem C7_counterexample : jaccardSimilarity [] [] 2 ≠ 1 := by decide

/-- **C7 (amended).**  `jaccardSimilarity` is symmetric and lies in `[0,1]`;
a string compared with itself yields `1.0` whenever its shingle set is
non-empty (strings with an empty shingle set yield `0.0` even against
themselves); and disjoint shingle sets always yield `0.0`. -/
theorem C7_jaccard_properties :
    (∀ a b k, jaccardSimilarity a b k = jaccardSimilarity b a k) ∧
    (∀ a b k, 0 ≤ jaccardSimilarity a b k ∧ jaccardSimilarity a b k ≤ 1) ∧
    (∀ a k, shingleSet a k ≠ ∅ → jaccardSimilarity a a k = 1) ∧
    (∀ a b k, shingleSet a k ∩ shingleSet b k = ∅ → jaccardSimilarity a b k = 0) := by
  refine ⟨?_, ?_, ?_, ?_⟩
  · intro a b k
    by_cases ha : shingleSet a k = ∅ <;> by_cases hb : shingleSet b k = ∅ <;>
      simp [jaccardSimilarity, ha, hb, Finset.inter_comm, Nat.add_comm]
  · intro a b k
    simp only [jaccardSimilarity]
    by_cases he : shingleSet a k = ∅ ∨ shingleSet b k = ∅
    · rw [if_pos he]; norm_num
    · rw [if_neg he]
      set sa := shingleSet a k
      set sb := shingleSet b k
      have h1 : (sa ∩ sb).card ≤ sa.card := Finset.card_le_card Finset.inter_subset_left
      have h2 : (sa ∩ sb).card ≤ sb.card := Finset.card_le_card Finset.inter_subset_right
      by_cases hu : sa.card + sb.card - (sa ∩ sb).card = 0
      · rw [if_pos hu]; norm_num
      · rw [if_neg hu]
        constructor
        · positivity
        · have h3 : (sa ∩ sb).card ≤ sa.card + sb.card - (sa ∩ sb).card := by omega
          exact div_le_one_of_le₀ (by exact_mod_cast h3) (by positivity)
  · intro a k ha
    simp only [jaccardSimilarity]
    rw [if_neg (by simpa using ha)]
    have hcard : shingleSet a k ∩ shingleSet a k = shingleSet a k := Finset.inter_self _
    rw [hcard]
    have hz : (shingleSet a k).card ≠ 0 := by
      simpa [Finset.card_eq_zero] using ha
    have hu : (shingleSet a k).card + (shingleSet a k).card - (shingleSet a k).card
        = (shingleSet a k).card := by omega
    rw [hu, if_neg hz]
    exact div_self (by exact_mod_cast hz)
  · intro a b k hd
    simp only [jaccardSimilarity]
    by_cases he : shingleSet a k = ∅ ∨ shingleSet b k = ∅
    · rw [if_pos he]
    · rw [if_neg he, hd]
      simp

/-- **C7, witness.** -/
theorem C7_witness :
    (shingleSet "ab cd".toList 2 ≠ ∅ ∧
      jaccardSimilarity "ab cd".toList "ab cd".toList 2 = 1) ∧
    (shingleSet "ab cd".toList 2 ∩ shingleSet "ef gh".toList 2 = ∅ ∧
      jaccardSimilarity "ab cd".toList "ef gh".toList 2 = 0) :=
  ⟨⟨by decide, C7_jaccard_properties.2.2.1 _ 2 (by decide)⟩,
   ⟨by decide, C7_jaccard_properties.2.2.2 _ _ 2 (by decide)⟩⟩

/-- **C5, witness.** -/
theorem C5_witness :
    (0 < (3 : Int) ∧ (3 : Int) ≤ 3 → (enrichStep 3 3 {} none {}).2 = 3 ∧
      ∀ p, enrichStep 3 3 {} none { ({} : EnrichCalls) with primary := p }
            = enrichStep 3 3 {} none {}) ∧
    (¬ (0 < (3 : Int) ∧ (3 : Int) ≤ 0) → (enrichStep 3 0 {} none {}).2 = 0 + 1) :=
  ⟨(C5_budget_counter 3 3 {} none {}).1, (C5_budget_counter 3 0 {} none {}).2⟩

end News

